import Mathlib

/-!
Verification development for the CNTree tree-rendering engine (cntree.py).

The filesystem is modelled as a tree of named nodes (`FSNode`); absolute
paths are lists of name segments.  The engine's private methods are
translated one-for-one into Lean functions below; Python's stable
`list.sort(key=...)` is modelled by a stable insertion sort (`insSortBy`)
with the boolean comparator induced by the corresponding key.
-/

-- ------------------------------------------------------------------
-- Filesystem model
-- ------------------------------------------------------------------

/-- A filesystem entry: a file or a directory with an (enumeration-ordered)
list of children.  The child order models the order `iterdir()` yields. -/
inductive FSNode : Type where
  | file (name : String)
  | dir (name : String) (children : List FSNode)

/-- Base name of an entry (`item.name` in pathlib). -/
def FSNode.name : FSNode → String
  | .file n => n
  | .dir n _ => n

/-- `item.is_dir()` for an existing entry. -/
def FSNode.isDirB : FSNode → Bool
  | .file _ => false
  | .dir _ _ => true

/-- `item.is_file()` for an existing entry. -/
def FSNode.isFileB : FSNode → Bool
  | .file _ => true
  | .dir _ _ => false

/-- First child with the given name (name resolution step). -/
def findChild (nm : String) : List FSNode → Option FSNode
  | [] => none
  | c :: cs => if c.name = nm then some c else findChild nm cs

/-- Walk an absolute path (list of segments) down from a node. -/
def lookupNode : FSNode → List String → Option FSNode
  | n, [] => some n
  | .file _, _ :: _ => none
  | .dir _ cs, seg :: rest =>
    match findChild seg cs with
    | none => none
    | some c => lookupNode c rest

/-- Whether the path names an existing directory in filesystem `fs`. -/
def isDirAt (fs : FSNode) (p : List String) : Bool :=
  match lookupNode fs p with
  | some (.dir _ _) => true
  | _ => false

/-- The node at a path, defaulting to an empty directory (only used after
the path has been checked to be a directory). -/
def nodeAtD (fs : FSNode) (p : List String) : FSNode :=
  (lookupNode fs p).getD (.dir "" [])

-- ------------------------------------------------------------------
-- Character-list lexicographic order (Python string comparison)
-- ------------------------------------------------------------------

/-- Strict lexicographic order on char lists by code point, as Python
compares strings. -/
def lexLt : List Char → List Char → Bool
  | [], [] => false
  | [], _ :: _ => true
  | _ :: _, [] => false
  | a :: as, b :: bs =>
    if a.toNat < b.toNat then true
    else if b.toNat < a.toNat then false
    else lexLt as bs

/-- Non-strict order: `a ≤ b` iff `¬ b < a`. -/
def lexLe (a b : List Char) : Bool := !(lexLt b a)

-- ------------------------------------------------------------------
-- Stable sort (model of Python's stable `list.sort`)
-- ------------------------------------------------------------------

/-- Insert `a` before the first element `b` with `le a b`; this makes the
sort below stable for ascending order. -/
def insertSorted (le : α → α → Bool) (a : α) : List α → List α
  | [] => [a]
  | b :: l => if le a b then a :: b :: l else b :: insertSorted le a l

/-- Stable insertion sort with a boolean comparator. -/
def insSortBy (le : α → α → Bool) : List α → List α
  | [] => []
  | a :: l => insertSorted le a (insSortBy le l)

theorem mem_insertSorted (le : α → α → Bool) (a x : α) (l : List α) :
    x ∈ insertSorted le a l ↔ x = a ∨ x ∈ l := by
  induction l with
  | nil => simp [insertSorted]
  | cons b m ih =>
    by_cases h : le a b = true
    · simp [insertSorted, h]
    · simp only [insertSorted, h, if_neg]
      simp [ih]
      tauto

theorem mem_insSortBy (le : α → α → Bool) (x : α) (l : List α) :
    x ∈ insSortBy le l ↔ x ∈ l := by
  induction l with
  | nil => simp [insSortBy]
  | cons a m ih => simp [insSortBy, mem_insertSorted, ih]

theorem sizeOf_insertSorted [SizeOf α] (le : α → α → Bool) (a : α) (l : List α) :
    sizeOf (insertSorted le a l) = 1 + sizeOf a + sizeOf l := by
  induction l with
  | nil => simp [insertSorted]
  | cons b m ih =>
    by_cases h : le a b = true
    · simp only [insertSorted, h, if_pos, List.cons.sizeOf_spec]
      try omega
    · simp only [insertSorted, h, if_neg, List.cons.sizeOf_spec, ih,
        Bool.false_eq_true, not_false_eq_true]
      try omega

theorem sizeOf_insSortBy [SizeOf α] (le : α → α → Bool) (l : List α) :
    sizeOf (insSortBy le l) = sizeOf l := by
  induction l with
  | nil => rfl
  | cons a m ih => simp [insSortBy, sizeOf_insertSorted, ih]

theorem sizeOf_filter_le [SizeOf α] (p : α → Bool) (l : List α) :
    sizeOf (l.filter p) ≤ sizeOf l := by
  induction l with
  | nil => simp
  | cons a m ih =>
    by_cases h : p a = true
    · simp [List.filter_cons, h]
      omega
    · simp [List.filter_cons, h]
      omega

/-- Stability/refinement lemma: inserting the (originally earlier) element
`a` into a list sorted under the composite relation keeps the composite
relation, where ties under `le` fall back to the prior relation `R`. -/
theorem pairwise_insertSorted_lex (le : α → α → Bool) (R : α → α → Prop)
    (htot : ∀ a b, le a b = true ∨ le b a = true)
    (htr : ∀ a b c, le a b = true → le b c = true → le a c = true)
    (a : α) (l : List α)
    (hl : l.Pairwise (fun x y =>
      (le x y = true ∧ le y x = false) ∨ (le x y = true ∧ le y x = true ∧ R x y)))
    (ha : ∀ x ∈ l, R a x) :
    (insertSorted le a l).Pairwise (fun x y =>
      (le x y = true ∧ le y x = false) ∨ (le x y = true ∧ le y x = true ∧ R x y)) := by
  induction l with
  | nil => simp [insertSorted]
  | cons b m ih =>
    rcases List.pairwise_cons.mp hl with ⟨hbm, hm⟩
    by_cases h : le a b = true
    · simp only [insertSorted, h, if_pos]
      refine List.pairwise_cons.mpr ⟨?_, hl⟩
      intro x hmem
      rcases List.mem_cons.mp hmem with hx | hx
      · subst hx
        by_cases hba : le x a = true
        · exact Or.inr ⟨h, hba, ha x (List.mem_cons_self _ _)⟩
        · exact Or.inl ⟨h, by simpa using hba⟩
      · have hbx := hbm x hx
        have hax : le a x = true := by
          rcases hbx with ⟨h1, _⟩ | ⟨h1, _, _⟩ <;> exact htr a b x h h1
        by_cases hxa : le x a = true
        · exact Or.inr ⟨hax, hxa, ha x (List.mem_cons_of_mem _ hx)⟩
        · exact Or.inl ⟨hax, by simpa using hxa⟩
    · simp only [insertSorted, h, if_neg, Bool.false_eq_true, not_false_eq_true]
      refine List.pairwise_cons.mpr
        ⟨?_, ih hm (fun x hx => ha x (List.mem_cons_of_mem _ hx))⟩
      intro y hy
      rcases (mem_insertSorted le a y m).mp hy with hy | hy
      · subst hy
        have hba : le b y = true := by
          rcases htot y b with htot1 | htot1
          · exact absurd htot1 h
          · exact htot1
        exact Or.inl ⟨hba, by simpa using h⟩
      · exact hbm y hy

/-- Sorting a list that is pairwise related by `R` yields a list pairwise
related by the composite (sort key first, ties broken by `R`): Python's
stable-sort refinement property. -/
theorem pairwise_insSortBy_lex (le : α → α → Bool) (R : α → α → Prop)
    (htot : ∀ a b, le a b = true ∨ le b a = true)
    (htr : ∀ a b c, le a b = true → le b c = true → le a c = true)
    (l : List α) (hl : l.Pairwise R) :
    (insSortBy le l).Pairwise (fun x y =>
      (le x y = true ∧ le y x = false) ∨ (le x y = true ∧ le y x = true ∧ R x y)) := by
  induction l with
  | nil => simp [insSortBy]
  | cons a m ih =>
    rcases List.pairwise_cons.mp hl with ⟨ham, hm⟩
    exact pairwise_insertSorted_lex le R htot htr a (insSortBy le m) (ih hm)
      (fun x hx => ham x ((mem_insSortBy le x m).mp hx))

-- ------------------------------------------------------------------
-- Paths (POSIX model)
-- ------------------------------------------------------------------

/-- A caller-supplied path: absolute flag plus segments (no separators
inside segments; `"."` and `".."` segments allowed). -/
structure RawPath where
  abs : Bool
  segs : List String
deriving DecidableEq

/-- Lexical normalization performed by `Path.resolve()` in a symlink-free
filesystem: drop `"."` segments, let `".."` pop the previous segment. -/
def resolveSegs (l : List String) : List String :=
  l.foldl (fun acc seg =>
    if seg = "." then acc
    else if seg = ".." then acc.dropLast
    else acc ++ [seg]) []

/-- `Path(p).resolve()`: relative paths are joined to the current working
directory (itself an absolute segment list), then normalized. -/
def resolvePath (cwd : List String) (p : RawPath) : List String :=
  resolveSegs ((if p.abs then [] else cwd) ++ p.segs)

/-- Characters of `str(path)` for an absolute path. -/
def pathChars : List String → List Char
  | [] => ['/']
  | s :: rest => (s :: rest).flatMap (fun seg => '/' :: seg.data)

/-- `item.name` of an absolute path (empty for the filesystem root). -/
def pathName (p : List String) : String := p.getLast?.getD ""

/-- Per-character lowercasing (`str.lower`). -/
def lowerChars (l : List Char) : List Char := l.map Char.toLower

-- ------------------------------------------------------------------
-- Python string helpers
-- ------------------------------------------------------------------

/-- `str.replace(pat, rep)`: replace left-to-right, non-overlapping.  (For
an empty pattern Python would interleave `rep`; the engine only ever calls
this with the non-empty pattern `$NAME`, so that case is left as the
identity.) -/
def replaceChars (pat rep : List Char) : List Char → List Char
  | [] => []
  | c :: cs =>
    if h : pat ≠ [] ∧ pat.isPrefixOf (c :: cs) then
      rep ++ replaceChars pat rep ((c :: cs).drop pat.length)
    else
      c :: replaceChars pat rep cs
termination_by l => l.length
decreasing_by
  · simp only [List.length_drop]
    have : pat.length ≠ 0 := fun hn => h.1 (List.length_eq_zero.mp hn)
    simp only [List.length_cons]
    omega
  · simp only [List.length_cons]
    omega

/-- `String` version of `replaceChars`. -/
def replaceStr (s pat rep : String) : String :=
  ⟨replaceChars pat.data rep.data s.data⟩

/-- `pat in s` (Python substring test) on char lists. -/
def subChars (pat : List Char) : List Char → Bool
  | [] => pat.isPrefixOf []
  | c :: t => pat.isPrefixOf (c :: t) || subChars pat t

/-- `pat in s` for strings. -/
def containsSub (s pat : String) : Bool := subChars pat.data s.data

/-- `str.lstrip()`: drop leading whitespace. -/
def lstripStr (s : String) : String := ⟨s.data.dropWhile Char.isWhitespace⟩

/-- `str.find(pat)` scanning from index `i`. -/
def findFrom (pat : List Char) : List Char → Nat → Int
  | [], i => if pat.isPrefixOf [] then (i : Int) else -1
  | c :: t, i =>
    if pat.isPrefixOf (c :: t) then (i : Int) else findFrom pat t (i + 1)

/-- `s.find(pat)`: index of the first occurrence, or `-1`. -/
def pyFind (s pat : String) : Int := findFrom pat.data s.data 0

/-- `' ' * n`. -/
def spaces (n : Nat) : String := ⟨List.replicate n ' '⟩


-- ------------------------------------------------------------------
-- CNTree class constants (cntree.py lines 46-70)
-- ------------------------------------------------------------------

def CHAR_VERT : Char := '│'
def CHAR_HORZ : Char := '─'
def CHAR_TEE : Char := '├'
def CHAR_ELL : Char := '└'
def CHAR_SPACE : Char := ' '

def PREFIX_VERT : String := ⟨[CHAR_VERT, CHAR_SPACE]⟩
def PREFIX_NONE : String := ⟨[CHAR_SPACE, CHAR_SPACE]⟩
def CONNECTOR_TEE : String := ⟨[CHAR_TEE, CHAR_HORZ]⟩
def CONNECTOR_ELL : String := ⟨[CHAR_ELL, CHAR_HORZ]⟩

def FORMAT_NAME : String := "$NAME"
def FORMAT_DIR : String := " " ++ FORMAT_NAME ++ "/"
def FORMAT_FILE : String := " " ++ FORMAT_NAME

/-- `'"\x7b\x7d" is not a directory'` (braces written escaped). -/
def ERR_NOT_A_DIR : String := "\"\x7b\x7d\" is not a directory"

def SORT_ORDER : String := "_."

/-- `str(start_dir)` for the error message (`str(None)` is `"None"`). -/
def rawShow : Option RawPath → String
  | none => "None"
  | some p =>
    let body := String.intercalate "/" p.segs
    if p.abs then "/" ++ body else if body = "" then "." else body

/-- `CNTree.ERR_NOT_A_DIR.format(start_dir)`. -/
def errNotADir (sd : Option RawPath) : String :=
  replaceStr ERR_NOT_A_DIR "\x7b\x7d" (rawShow sd)

-- ------------------------------------------------------------------
-- Per-build configuration (the instance attributes read during the walk)
-- ------------------------------------------------------------------

structure Config where
  filter_list : List (List String)
  dir_format : String
  file_format : String
  root_lead : String
  dir_lead : String
  sort_order : List (Char × Int)

-- ------------------------------------------------------------------
-- Sanitizers and precomputation (cntree.py lines 212-357)
-- ------------------------------------------------------------------

/-- The OS path walk performed when a raw, unresolved path is statted
(as by `Path.is_dir()`): components are traversed in order, `"."` stays
put, `".."` steps to the parent of the directory actually reached so far,
and the walk fails (ENOENT/ENOTDIR) as soon as the position reached is
not a directory or a named component does not exist — even when a later
`".."` would lexically cancel the missing component. -/
def walkSegs (fs : FSNode) : List String → List String → Option (List String)
  | cur, [] => some cur
  | cur, s :: rest =>
    if isDirAt fs cur then
      if s = "." then walkSegs fs cur rest
      else if s = ".." then walkSegs fs cur.dropLast rest
      else if (lookupNode fs (cur ++ [s])).isSome then
        walkSegs fs (cur ++ [s]) rest
      else none
    else none

/-- `Path(start_dir).is_dir()` on the raw path (cntree.py line 234): the
walk starts at the filesystem root for an absolute path and at the
current working directory (itself an already-resolved absolute location)
otherwise, and the walked target must exist and be a directory. -/
def isDirRaw (fs : FSNode) (cwd : List String) (rp : RawPath) : Bool :=
  match walkSegs fs (resolveSegs (if rp.abs then [] else cwd)) rp.segs with
  | none => false
  | some q => isDirAt fs q

/-- `_sanitize_start_dir`: `None` raises; `is_dir()` is checked on the
raw, unresolved path (line 234) and only afterwards is the path resolved
(line 238), so a path whose `..` follows a nonexistent or non-directory
component raises even when its lexical resolution names a directory. -/
def sanitizeStartDir (fs : FSNode) (cwd : List String) (sd : Option RawPath) :
    Except Unit (List String) :=
  match sd with
  | none => .error ()
  | some p =>
    if isDirRaw fs cwd p then .ok (resolvePath cwd p) else .error ()

/-- `_sanitize_filter_list`: join relative entries to the (already
resolved) start dir, then resolve everything. -/
def sanitizeFilterList (root : List String) (fl : List RawPath) :
    List (List String) :=
  fl.map (fun it => resolveSegs ((if it.abs then [] else root) ++ it.segs))

/-- `_sanitize_formats`: a caller format is kept only if truthy (non-empty)
and containing `$NAME`; otherwise the default stands. -/
def sanitizeFormats (df ff : String) : String × String :=
  (if df ≠ "" ∧ containsSub df FORMAT_NAME = true then df else FORMAT_DIR,
   if ff ≠ "" ∧ containsSub ff FORMAT_NAME = true then ff else FORMAT_FILE)

/-- `_get_leads`: root lead from the left-stripped directory format, dir
lead from the unstripped one (each `' ' * find(...)`). -/
def getLeads (df : String) : String × String :=
  let rootFmt := lstripStr df
  (spaces (pyFind rootFmt FORMAT_NAME).toNat,
   spaces (pyFind df FORMAT_NAME).toNat)

/-- `_get_sort_order`: `'_.'` becomes `[('_', -2), ('.', -1)]`. -/
def mkSortOrder : List (Char × Int) :=
  SORT_ORDER.data.enum.map
    (fun ic => (ic.2, (ic.1 : Int) - (SORT_ORDER.data.length : Int)))

/-- `_do_sort`: rank of the first character of the entry name, from the
sort-order table, defaulting to the character's ordinal.  (Python would
raise IndexError on an empty name, which cannot occur for a real
filesystem entry; the model returns 0 there.) -/
def doSortRank (so : List (Char × Int)) (item : FSNode) : Int :=
  match item.name.data with
  | [] => 0
  | c :: _ => (so.lookup c).getD (c.toNat : Int)

/-- `_add_root`: the root line, from the left-stripped directory format. -/
def addRoot (df : String) (p : List String) : String :=
  replaceStr (lstripStr df) FORMAT_NAME (pathName p)

-- ------------------------------------------------------------------
-- Sorting and filtering of a directory enumeration (lines 396-409)
-- ------------------------------------------------------------------

/-- Absolute path of a child entry. -/
def childPath (path : List String) (c : FSNode) : List String :=
  path ++ [c.name]

/-- `str(item).lower()`, the first (lowest-priority) sort key. -/
def sortKeyStr (path : List String) (c : FSNode) : List Char :=
  lowerChars (pathChars (childPath path c))

def leKey1 (path : List String) (a b : FSNode) : Bool :=
  lexLe (sortKeyStr path a) (sortKeyStr path b)

def leKey2 (so : List (Char × Int)) (a b : FSNode) : Bool :=
  decide (doSortRank so a ≤ doSortRank so b)

def leKey3 (a b : FSNode) : Bool := !a.isFileB || b.isFileB

/-- The three stable sort passes of `_add_contents`. -/
def sortChildren (so : List (Char × Int)) (path : List String)
    (cs : List FSNode) : List FSNode :=
  insSortBy leKey3 (insSortBy (leKey2 so) (insSortBy (leKey1 path) cs))

/-- Sorted children minus the filtered paths: the surviving entries, in
emission order. -/
def survivors (cfg : Config) (path : List String) (cs : List FSNode) :
    List FSNode :=
  (sortChildren cfg.sort_order path cs).filter
    (fun c => !cfg.filter_list.contains (childPath path c))

theorem sizeOf_sortChildren (so : List (Char × Int)) (path : List String)
    (cs : List FSNode) : sizeOf (sortChildren so path cs) = sizeOf cs := by
  simp [sortChildren, sizeOf_insSortBy]

theorem sizeOf_survivors_le (cfg : Config) (path : List String)
    (cs : List FSNode) : sizeOf (survivors cfg path cs) ≤ sizeOf cs := by
  calc sizeOf (survivors cfg path cs) ≤ sizeOf (sortChildren cfg.sort_order path cs) :=
        sizeOf_filter_le _ _
    _ = sizeOf cs := sizeOf_sortChildren _ _ _

theorem one_le_sizeOf_list [SizeOf α] (l : List α) : 1 ≤ sizeOf l := by
  cases l with
  | nil => simp
  | cons a m => simp only [List.cons.sizeOf_spec]; omega

theorem sizeOf_head_lt [SizeOf α] (c : α) (rest : List α) :
    1 + sizeOf c < sizeOf (c :: rest) := by
  have h := one_le_sizeOf_list rest
  simp only [List.cons.sizeOf_spec]
  omega

-- ------------------------------------------------------------------
-- The recursive emitter (`_add_contents` / `_add_dir`, lines 378-484)
-- ------------------------------------------------------------------

mutual

/-- `_add_contents(item, prefix)`: emit the lines for all surviving
entries under the directory `node` (whose absolute path is `path`). -/
def addContents (cfg : Config) (node : FSNode) (path : List String)
    (pfx : String) : List String :=
  match node with
  | .file _ => []
  | .dir _ cs =>
    emitLoop cfg (survivors cfg path cs) 0 (survivors cfg path cs).length
      path pfx
termination_by 1 + sizeOf node
decreasing_by
  refine Nat.lt_of_le_of_lt (sizeOf_survivors_le _ _ _) ?_
  simp only [FSNode.dir.sizeOf_spec]
  omega

/-- The `for index, item in enumerate(items)` loop of `_add_contents`,
with the running index and the total count. -/
def emitLoop (cfg : Config) (l : List FSNode) (idx count : Nat)
    (path : List String) (pfx : String) : List String :=
  match l with
  | [] => []
  | c :: rest =>
    let connector := if idx < count - 1 then CONNECTOR_TEE else CONNECTOR_ELL
    let fmt := if c.isDirB then cfg.dir_format else cfg.file_format
    let repName := replaceStr fmt FORMAT_NAME c.name
    let line := cfg.root_lead ++ pfx ++ connector ++ repName
    let sub :=
      if c.isDirB then
        addContents cfg c (childPath path c)
          (pfx ++ (if idx < count - 1 then PREFIX_VERT else PREFIX_NONE)
            ++ cfg.dir_lead)
      else []
    line :: (sub ++ emitLoop cfg rest (idx + 1) count path pfx)
termination_by sizeOf l
decreasing_by
  all_goals first
    | exact sizeOf_head_lt _ _
    | (simp only [List.cons.sizeOf_spec]; omega)

end


-- ------------------------------------------------------------------
-- Instrumented emitter: the same walk, recording which entry each
-- emitted line belongs to (used to reason about which entries appear)
-- ------------------------------------------------------------------

mutual

/-- As `addContents`, but each line is paired with the absolute path of
the entry it renders. -/
def addEntries (cfg : Config) (node : FSNode) (path : List String)
    (pfx : String) : List (List String × String) :=
  match node with
  | .file _ => []
  | .dir _ cs =>
    emitEntries cfg (survivors cfg path cs) 0 (survivors cfg path cs).length
      path pfx
termination_by 1 + sizeOf node
decreasing_by
  refine Nat.lt_of_le_of_lt (sizeOf_survivors_le _ _ _) ?_
  simp only [FSNode.dir.sizeOf_spec]
  omega

def emitEntries (cfg : Config) (l : List FSNode) (idx count : Nat)
    (path : List String) (pfx : String) : List (List String × String) :=
  match l with
  | [] => []
  | c :: rest =>
    let connector := if idx < count - 1 then CONNECTOR_TEE else CONNECTOR_ELL
    let fmt := if c.isDirB then cfg.dir_format else cfg.file_format
    let repName := replaceStr fmt FORMAT_NAME c.name
    let line := cfg.root_lead ++ pfx ++ connector ++ repName
    let sub :=
      if c.isDirB then
        addEntries cfg c (childPath path c)
          (pfx ++ (if idx < count - 1 then PREFIX_VERT else PREFIX_NONE)
            ++ cfg.dir_lead)
      else []
    (childPath path c, line) :: (sub ++ emitEntries cfg rest (idx + 1) count path pfx)
termination_by sizeOf l
decreasing_by
  all_goals first
    | exact sizeOf_head_lt _ _
    | (simp only [List.cons.sizeOf_spec]; omega)

end

-- ------------------------------------------------------------------
-- Specification-style emitter, following the spec's words: within a
-- surviving sibling group every entry but the last gets the tee
-- connector (and carries the vertical bar down), and exactly the last
-- one gets the elbow (and a blank segment).  Used as the reference
-- implementation for the connector-selection claim.
-- ------------------------------------------------------------------

mutual

/-- Modelled from the spec: last-in-list gets the elbow, everyone before
it gets the tee. -/
def specAdd (cfg : Config) (node : FSNode) (path : List String)
    (pfx : String) : List String :=
  match node with
  | .file _ => []
  | .dir _ cs => specLoop cfg (survivors cfg path cs) path pfx
termination_by 1 + sizeOf node
decreasing_by
  refine Nat.lt_of_le_of_lt (sizeOf_survivors_le _ _ _) ?_
  simp only [FSNode.dir.sizeOf_spec]
  omega

def specLoop (cfg : Config) (l : List FSNode) (path : List String)
    (pfx : String) : List String :=
  match l with
  | [] => []
  | [c] =>
    let fmt := if c.isDirB then cfg.dir_format else cfg.file_format
    let line := cfg.root_lead ++ pfx ++ CONNECTOR_ELL
      ++ replaceStr fmt FORMAT_NAME c.name
    line :: (if c.isDirB then
      specAdd cfg c (childPath path c) (pfx ++ PREFIX_NONE ++ cfg.dir_lead)
      else [])
  | c :: c2 :: rest =>
    let fmt := if c.isDirB then cfg.dir_format else cfg.file_format
    let line := cfg.root_lead ++ pfx ++ CONNECTOR_TEE
      ++ replaceStr fmt FORMAT_NAME c.name
    line :: ((if c.isDirB then
      specAdd cfg c (childPath path c) (pfx ++ PREFIX_VERT ++ cfg.dir_lead)
      else []) ++ specLoop cfg (c2 :: rest) path pfx)
termination_by sizeOf l
decreasing_by
  all_goals first
    | exact sizeOf_head_lt _ _
    | (simp only [List.cons.sizeOf_spec]; omega)

end

-- ------------------------------------------------------------------
-- The public build (build_tree, lines 116-203)
-- ------------------------------------------------------------------

/-- The per-build configuration assembled from the sanitized filter list
and formats. -/
def mkConfig (F : List (List String)) (dfS ffS : String) : Config :=
  { filter_list := F
    dir_format := dfS
    file_format := ffS
    root_lead := (getLeads dfS).1
    dir_lead := (getLeads dfS).2
    sort_order := mkSortOrder }

/-- The `_tree` line list for a validated start directory `p`, sanitized
filter list `F` and sanitized formats: the root line followed by the
recursive contents. -/
def linesFor (fs : FSNode) (p : List String) (F : List (List String))
    (dfS ffS : String) : List String :=
  addRoot dfS p :: addContents (mkConfig F dfS ffS) (nodeAtD fs p) p ""

/-- `build_tree` up to the final join: either the invalid-directory error
or the list of emitted lines. -/
def buildLines (fs : FSNode) (cwd : List String) (sd : Option RawPath)
    (fl : List RawPath) (df ff : String) : Except String (List String) :=
  match sanitizeStartDir fs cwd sd with
  | .error _ => .error (errNotADir sd)
  | .ok p =>
    .ok (linesFor fs p (sanitizeFilterList p fl)
      (sanitizeFormats df ff).1 (sanitizeFormats df ff).2)

/-- `build_tree`: the rendered tree as a single newline-joined string, or
the invalid-directory error. -/
def buildTree (fs : FSNode) (cwd : List String) (sd : Option RawPath)
    (fl : List RawPath) (df ff : String) : Except String String :=
  (buildLines fs cwd sd fl df ff).map (fun ls => String.intercalate "\n" ls)

-- ------------------------------------------------------------------
-- Stateful view: the CNTree instance attributes, reset on every call
-- (build_tree lines 160-203)
-- ------------------------------------------------------------------

/-- The mutable attributes of a `CNTree` instance. -/
structure TreeState where
  start_dir : Option (List String)
  filter_list : List (List String)
  dir_format : String
  file_format : String
  root_lead : String
  dir_lead : String
  sort_order : List (Char × Int)
  tree : List String

/-- `build_tree` on a (possibly dirty) instance: every attribute is reset
first, exactly as in the source, then the phases run in order, each
reading and writing the instance state. -/
def buildTreeSt (fs : FSNode) (cwd : List String) (st0 : TreeState)
    (sd : Option RawPath) (fl : List RawPath) (df ff : String) :
    TreeState × Except String String :=
  -- reset all props every time this method is called
  let st := { st0 with
    start_dir := none
    filter_list := []
    dir_format := FORMAT_DIR
    file_format := FORMAT_FILE
    root_lead := ""
    dir_lead := ""
    sort_order := []
    tree := [] }
  match sanitizeStartDir fs cwd sd with
  | .error _ => (st, .error (errNotADir sd))
  | .ok p =>
    let st := { st with start_dir := some p }
    let st := { st with filter_list := sanitizeFilterList p fl }
    let st := { st with
      dir_format := (sanitizeFormats df ff).1
      file_format := (sanitizeFormats df ff).2 }
    let st := { st with
      root_lead := (getLeads st.dir_format).1
      dir_lead := (getLeads st.dir_format).2 }
    let st := { st with sort_order := mkSortOrder }
    let st := { st with
      tree := st.tree ++ [addRoot st.dir_format (st.start_dir.getD [])] }
    let cfg : Config := { filter_list := st.filter_list
                          dir_format := st.dir_format
                          file_format := st.file_format
                          root_lead := st.root_lead
                          dir_lead := st.dir_lead
                          sort_order := st.sort_order }
    let st := { st with
      tree := st.tree ++
        addContents cfg (nodeAtD fs (st.start_dir.getD []))
          (st.start_dir.getD []) "" }
    (st, .ok (String.intercalate "\n" st.tree))


-- ------------------------------------------------------------------
-- Auxiliary notions used by the statements below
-- ------------------------------------------------------------------

mutual

/-- Well-formed filesystem subtree: sibling names are distinct at every
level (true of a real filesystem directory). -/
def wfNode : FSNode → Bool
  | .file _ => true
  | .dir _ cs => decide ((cs.map FSNode.name).Nodup) && wfChildren cs

/-- All members of a child list are well-formed. -/
def wfChildren : List FSNode → Bool
  | [] => true
  | c :: rest => wfNode c && wfChildren rest

end

/-- The indentation prefix contributed by a chain of directory ancestors:
one two-character segment per ancestor (vertical bar for a non-last
sibling, blanks for a last one), each followed by the directory lead. -/
def segsStr (dl : String) : List Bool → String
  | [] => ""
  | b :: bs => ((if b then PREFIX_VERT else PREFIX_NONE) ++ dl) ++ segsStr dl bs

/-- Whether the sibling named `s` occurs in the list strictly before the
last position — i.e. whether the entry is a surviving sibling that is not
the last one of its group. -/
def notLastIn : List FSNode → String → Bool
  | [], _ => false
  | [_], _ => false
  | c :: c2 :: rest, s => if c.name = s then true else notLastIn (c2 :: rest) s

/-- The per-ancestor prefix flags of the entry reached from `node` (whose
absolute path is `path`) along the relative path `rel`, read off the tree
independently of the emitter: one boolean per strict ancestor, true iff
that ancestor is not the last entry of its surviving sibling group. -/
def ancFlags (cfg : Config) : FSNode → List String → List String →
    Option (List Bool)
  | _, _, [] => some []
  | _, _, [_] => some []
  | .file _, _, _ :: _ :: _ => none
  | .dir _ cs, path, s :: r :: rest =>
    match findChild s cs with
    | none => none
    | some c =>
      (ancFlags cfg c (path ++ [s]) (r :: rest)).map
        (fun bs => notLastIn (survivors cfg path cs) s :: bs)

/-- The concrete filesystem of the end-to-end scenario: root `R` holding
directory `A` (with file `x.txt`) and file `b.txt`, mounted at `/R`. -/
def fsC1 : FSNode := .dir "" [.dir "R" [.dir "A" [.file "x.txt"], .file "b.txt"]]


-- ------------------------------------------------------------------
-- Claim C1: the end-to-end scenario
-- ------------------------------------------------------------------

/-- Claim C1: with the built-in default formats and an empty filter list,
for a start directory `R` containing exactly one directory `A` (holding
one file `x.txt`) and one file `b.txt`, `build_tree` returns exactly the
four expected lines joined by single newlines with no trailing newline. -/
theorem claim_C1 :
    buildTree fsC1 [] (some ⟨true, ["R"]⟩) [] "" "" =
      .ok "R/\n├─ A/\n│  └─ x.txt\n└─ b.txt" := by
  simp +decide [buildTree, buildLines, linesFor, mkConfig, sanitizeStartDir, isDirRaw, walkSegs,
    sanitizeFilterList, sanitizeFormats, getLeads, mkSortOrder, addRoot, nodeAtD,
    resolvePath, resolveSegs, isDirAt, lookupNode, findChild, addContents,
    emitLoop, survivors, sortChildren, insSortBy, insertSorted, leKey1, leKey2,
    leKey3, sortKeyStr, lowerChars, pathChars, childPath, doSortRank, lexLe,
    lexLt, replaceStr, replaceChars, lstripStr, pyFind, findFrom, spaces,
    FSNode.name, FSNode.isDirB, FSNode.isFileB, pathName, fsC1,
    FORMAT_NAME, FORMAT_DIR, FORMAT_FILE, CONNECTOR_TEE, CONNECTOR_ELL,
    PREFIX_VERT, PREFIX_NONE, CHAR_VERT, CHAR_HORZ, CHAR_TEE, CHAR_ELL,
    CHAR_SPACE, SORT_ORDER, String.intercalate]
  rfl

-- ------------------------------------------------------------------
-- Claim C9: per-build state is fully reset, so results only depend on
-- the parameters and the filesystem
-- ------------------------------------------------------------------

/-- Claim C9: for a fixed filesystem, two calls with identical parameters
return identical strings on any (even reused, even dirtied-in-between)
instance: the result is independent of the incoming instance state. -/
theorem claim_C9 (fs : FSNode) (cwd : List String) (stA stB : TreeState)
    (sd sd2 : Option RawPath) (fl fl2 : List RawPath) (df ff df2 ff2 : String) :
    (buildTreeSt fs cwd stA sd fl df ff).2 =
        (buildTreeSt fs cwd stB sd fl df ff).2 ∧
      (buildTreeSt fs cwd
          (buildTreeSt fs cwd (buildTreeSt fs cwd stA sd fl df ff).1
            sd2 fl2 df2 ff2).1 sd fl df ff).2 =
        (buildTreeSt fs cwd stA sd fl df ff).2 := by
  constructor <;> rfl


-- ------------------------------------------------------------------
-- Claim C7: format sanitization
-- ------------------------------------------------------------------

theorem keepFormat_iff (x dflt : String)
    (hd : dflt ≠ "" ∧ containsSub dflt FORMAT_NAME = true) :
    ((if x ≠ "" ∧ containsSub x FORMAT_NAME = true then x else dflt) = x ↔
      (x ≠ "" ∧ containsSub x FORMAT_NAME = true)) := by
  by_cases hc : x ≠ "" ∧ containsSub x FORMAT_NAME = true
  · simp [hc]
  · rw [if_neg hc]
    constructor
    · intro heq
      subst heq
      exact absurd hd hc
    · intro hcon
      exact absurd hcon hc

/-- Claim C7: a caller-supplied directory (file) format is the one used
iff it is non-empty and contains `$NAME`; otherwise the built-in default
`" $NAME/"` (`" $NAME"`) silently stands. -/
theorem claim_C7 (df ff : String) :
    (((sanitizeFormats df ff).1 = df ↔
        (df ≠ "" ∧ containsSub df FORMAT_NAME = true)) ∧
      (¬ (df ≠ "" ∧ containsSub df FORMAT_NAME = true) →
        (sanitizeFormats df ff).1 = " $NAME/")) ∧
    (((sanitizeFormats df ff).2 = ff ↔
        (ff ≠ "" ∧ containsSub ff FORMAT_NAME = true)) ∧
      (¬ (ff ≠ "" ∧ containsSub ff FORMAT_NAME = true) →
        (sanitizeFormats df ff).2 = " $NAME")) := by
  have hdir : FORMAT_DIR ≠ "" ∧ containsSub FORMAT_DIR FORMAT_NAME = true := by
    decide
  have hfile : FORMAT_FILE ≠ "" ∧ containsSub FORMAT_FILE FORMAT_NAME = true := by
    decide
  have hdirlit : FORMAT_DIR = " $NAME/" := by decide
  have hfilelit : FORMAT_FILE = " $NAME" := by decide
  refine ⟨⟨?_, ?_⟩, ⟨?_, ?_⟩⟩
  · simpa [sanitizeFormats] using keepFormat_iff df FORMAT_DIR hdir
  · intro hc
    simp only [sanitizeFormats, if_neg hc]
    exact hdirlit
  · simpa [sanitizeFormats] using keepFormat_iff ff FORMAT_FILE hfile
  · intro hc
    simp only [sanitizeFormats, if_neg hc]
    exact hfilelit

/-- Witness for claim C7 at concrete inputs. -/
theorem claim_C7_witness :
    (sanitizeFormats "" "x $NAME y").1 = " $NAME/" ∧
      (sanitizeFormats "" "x $NAME y").2 = "x $NAME y" :=
  ⟨(claim_C7 "" "x $NAME y").1.2 (by decide),
    ((claim_C7 "" "x $NAME y").2.1).mpr (by decide)⟩

-- ------------------------------------------------------------------
-- Claim C2: the invalid-directory error
-- ------------------------------------------------------------------

theorem walkSegs_eq_foldl (fs : FSNode) :
    ∀ (segs cur q : List String), walkSegs fs cur segs = some q →
      q = segs.foldl (fun acc seg =>
        if seg = "." then acc
        else if seg = ".." then acc.dropLast
        else acc ++ [seg]) cur := by
  intro segs
  induction segs with
  | nil =>
    intro cur q h
    rw [walkSegs] at h
    injection h with h
    simp [h.symm]
  | cons s rest ih =>
    intro cur q h
    rw [walkSegs] at h
    by_cases hd : isDirAt fs cur = true
    · rw [if_pos hd] at h
      by_cases h1 : s = "."
      · rw [if_pos h1] at h
        have hr := ih cur q h
        simp [h1, hr]
      · rw [if_neg h1] at h
        by_cases h2 : s = ".."
        · rw [if_pos h2] at h
          have hr := ih cur.dropLast q h
          simp [h1, h2, hr]
        · rw [if_neg h2] at h
          by_cases h3 : (lookupNode fs (cur ++ [s])).isSome = true
          · rw [if_pos h3] at h
            have hr := ih (cur ++ [s]) q h
            simp [h1, h2, hr]
          · rw [if_neg h3] at h
            cases h
    · rw [if_neg hd] at h
      cases h

/-- A successful raw walk lands exactly on the lexical resolution of the
path, which is therefore an existing directory. -/
theorem isDirRaw_resolved (fs : FSNode) (cwd : List String) (rp : RawPath)
    (h : isDirRaw fs cwd rp = true) :
    isDirAt fs (resolvePath cwd rp) = true := by
  rw [isDirRaw] at h
  rcases hw : walkSegs fs (resolveSegs (if rp.abs then [] else cwd)) rp.segs
    with _ | q
  · rw [hw] at h
    cases h
  · rw [hw] at h
    have hq := walkSegs_eq_foldl fs rp.segs _ q hw
    have hp : resolvePath cwd rp = q := by
      rw [hq, resolvePath, resolveSegs, resolveSegs, List.foldl_append]
    rw [hp]
    exact h

/-- Claim C2 (amended): `build_tree` fails with the invalid-directory
error iff the start dir is absent or the supplied path does not stat as
an existing directory — the OS walks the raw, unresolved path, so the
walk fails at a missing or non-directory intermediate component even when
a later `..` would lexically cancel it, and fails when the final target
is not a directory; when the raw walk does reach a directory the build
succeeds, and the root is the lexical resolution of the path, an existing
directory. -/
theorem claim_C2_amended (fs : FSNode) (cwd : List String)
    (sd : Option RawPath) (fl : List RawPath) (df ff : String) :
    ((∃ s, buildTree fs cwd sd fl df ff = .ok s) ↔
      (∃ rp, sd = some rp ∧ isDirRaw fs cwd rp = true)) ∧
    ((∀ rp, sd = some rp → isDirRaw fs cwd rp = false) →
      buildTree fs cwd sd fl df ff = .error (errNotADir sd)) ∧
    (∀ rp, sd = some rp → isDirRaw fs cwd rp = true →
      isDirAt fs (resolvePath cwd rp) = true) := by
  refine ⟨?_, ?_, fun rp _ hd => isDirRaw_resolved fs cwd rp hd⟩
  · cases sd with
    | none =>
      simp [buildTree, buildLines, sanitizeStartDir, Except.map]
    | some p =>
      by_cases hdir : isDirRaw fs cwd p = true
      · simp [buildTree, buildLines, sanitizeStartDir, hdir, Except.map]
      · constructor
        · rintro ⟨s, hs⟩
          rw [buildTree, buildLines, sanitizeStartDir, if_neg hdir] at hs
          cases hs
        · rintro ⟨q, hq, hdq⟩
          cases hq
          exact absurd hdq hdir
  · cases sd with
    | none =>
      intro _
      rfl
    | some p =>
      intro h
      have hfalse := h p rfl
      rw [buildTree, buildLines, sanitizeStartDir,
        if_neg (by rw [hfalse]; simp)]
      rfl

/-- Counterexample to claim C2 as stated: the path `/R/nope/../A`
resolves lexically to the existing directory `/R/A`, yet `build_tree`
raises the invalid-directory error, because `is_dir()` stats the
unresolved path and the walk dies at the nonexistent component `nope`
before the `..` can cancel it. -/
theorem claim_C2_cex :
    buildTree fsC1 [] (some ⟨true, ["R", "nope", "..", "A"]⟩) [] "" "" =
      .error (errNotADir (some ⟨true, ["R", "nope", "..", "A"]⟩)) ∧
    resolvePath [] ⟨true, ["R", "nope", "..", "A"]⟩ = ["R", "A"] ∧
    isDirAt fsC1 ["R", "A"] = true :=
  ⟨rfl, by decide, by decide⟩

/-- Witness for the amended claim C2: a file path is rejected with the
error, and a directory path succeeds. -/
theorem claim_C2_witness :
    buildTree fsC1 [] (some ⟨true, ["R", "b.txt"]⟩) [] "" "" =
      .error (errNotADir (some ⟨true, ["R", "b.txt"]⟩)) ∧
    (∃ s, buildTree fsC1 [] (some ⟨true, ["R", "A"]⟩) [] "" "" = .ok s) :=
  ⟨(claim_C2_amended fsC1 [] (some ⟨true, ["R", "b.txt"]⟩) [] "" "").2.1
      (by intro p hp; cases hp; decide),
    ((claim_C2_amended fsC1 [] (some ⟨true, ["R", "A"]⟩) [] "" "").1).mpr
      ⟨⟨true, ["R", "A"]⟩, rfl, by decide⟩⟩


-- ------------------------------------------------------------------
-- Claim C5: connector selection (tee for all but the last survivor,
-- elbow exactly for the last; empty groups emit nothing)
-- ------------------------------------------------------------------

theorem fsnode_strong_ind (P : FSNode → Prop)
    (h : ∀ n, (∀ m, sizeOf m < sizeOf n → P m) → P n) : ∀ n, P n := by
  have hk : ∀ k (n : FSNode), sizeOf n < k → P n := by
    intro k
    induction k with
    | zero => intro n hn; omega
    | succ k ih => intro n _; exact h n (fun m hm => ih m (by omega))
  exact fun n => hk (sizeOf n + 1) n (by omega)

theorem mem_sortChildren (so : List (Char × Int)) (path : List String)
    (cs : List FSNode) (c : FSNode) :
    c ∈ sortChildren so path cs → c ∈ cs := by
  intro h
  rw [sortChildren] at h
  exact (mem_insSortBy _ _ _).mp ((mem_insSortBy _ _ _).mp
    ((mem_insSortBy _ _ _).mp h))

theorem mem_survivors (cfg : Config) (path : List String) (cs : List FSNode)
    (c : FSNode) : c ∈ survivors cfg path cs → c ∈ cs := by
  intro h
  rw [survivors] at h
  exact mem_sortChildren _ _ _ _ (List.mem_filter.mp h).1

theorem emitLoop_eq_specLoop (cfg : Config) (l : List FSNode)
    (hIH : ∀ c ∈ l, ∀ path pfx,
      addContents cfg c path pfx = specAdd cfg c path pfx) :
    ∀ idx count path pfx, count = idx + l.length →
      emitLoop cfg l idx count path pfx = specLoop cfg l path pfx := by
  induction l with
  | nil =>
    intro idx count path pfx _
    rw [emitLoop, specLoop]
  | cons c rest ih =>
    intro idx count path pfx hcount
    cases rest with
    | nil =>
      rw [emitLoop, specLoop]
      have hno : ¬ idx < count - 1 := by
        simp only [List.length_cons, List.length_nil] at hcount
        omega
      by_cases hc : c.isDirB = true
      · simp [hno, hc, emitLoop, hIH c (List.mem_singleton.mpr rfl)]
      · simp [hno, hc, emitLoop]
    | cons c2 rest2 =>
      rw [emitLoop, specLoop]
      have hyes : idx < count - 1 := by
        simp only [List.length_cons] at hcount
        omega
      have hrec : emitLoop cfg (c2 :: rest2) (idx + 1) count path pfx =
          specLoop cfg (c2 :: rest2) path pfx := by
        refine ih (fun d hd pp ss => hIH d (List.mem_cons_of_mem _ hd) pp ss)
          (idx + 1) count path pfx ?_
        simp only [List.length_cons] at hcount ⊢
        omega
      by_cases hc : c.isDirB = true
      · simp [hyes, hc, hrec, hIH c (List.mem_cons_self _ _)]
      · simp [hyes, hc, hrec]

theorem addContents_eq_specAdd (cfg : Config) :
    ∀ node path pfx, addContents cfg node path pfx = specAdd cfg node path pfx := by
  refine fsnode_strong_ind
    (fun n => ∀ path pfx, addContents cfg n path pfx = specAdd cfg n path pfx) ?_
  intro n ihn path pfx
  cases n with
  | file nm => rw [addContents, specAdd]
  | dir nm cs =>
    rw [addContents, specAdd]
    exact emitLoop_eq_specLoop cfg (survivors cfg path cs)
      (fun c hc pp ss => by
        have hmem : c ∈ cs := mem_survivors cfg path cs c hc
        have hsz : sizeOf c < sizeOf (FSNode.dir nm cs) := by
          have := List.sizeOf_lt_of_mem hmem
          simp only [FSNode.dir.sizeOf_spec]
          omega
        exact ihn c hsz pp ss) 0 (survivors cfg path cs).length path pfx
      (by omega)

/-- Claim C5: the emitter is exactly the specification emitter in which,
within every surviving sibling group, every entry but the last is
rendered with the tee connector and exactly the last one with the elbow;
and a directory whose surviving-children list is empty contributes no
child lines at all. -/
theorem claim_C5 (cfg : Config) (node : FSNode) (path : List String)
    (pfx : String) (nm : String) (cs : List FSNode) :
    addContents cfg node path pfx = specAdd cfg node path pfx ∧
    (survivors cfg path cs = [] →
      addContents cfg (.dir nm cs) path pfx = []) := by
  constructor
  · exact addContents_eq_specAdd cfg node path pfx
  · intro hempty
    rw [addContents, hempty, emitLoop]

/-- Witness for claim C5: a group where everything is filtered out emits
nothing. -/
theorem claim_C5_witness :
    addContents (mkConfig [["d", "x"]] " $NAME/" " $NAME")
        (.dir "d" [.file "x"]) ["d"] "" = [] :=
  (claim_C5 (mkConfig [["d", "x"]] " $NAME/" " $NAME") (.dir "d" [.file "x"])
    ["d"] "" "d" [.file "x"]).2 (by rfl)


-- ------------------------------------------------------------------
-- Claim C4: the emission order within a directory
-- ------------------------------------------------------------------

theorem pairwise_true (l : List α) : l.Pairwise (fun _ _ => True) := by
  induction l with
  | nil => exact List.Pairwise.nil
  | cons a m ih => exact List.Pairwise.cons (fun _ _ => trivial) ih

theorem char_toNat_inj (x y : Char) (h : x.toNat = y.toNat) : x = y := by
  apply Char.ext
  exact UInt32.ext h

theorem lexLt_asymm (a : List Char) :
    ∀ b, lexLt a b = true → lexLt b a = false := by
  induction a with
  | nil =>
    intro b hab
    cases b with
    | nil => simpa [lexLt] using hab
    | cons y ys => simp [lexLt]
  | cons x xs ih =>
    intro b hab
    cases b with
    | nil => simp [lexLt] at hab
    | cons y ys =>
      rw [lexLt] at hab ⊢
      by_cases h1 : x.toNat < y.toNat
      · simp only [if_pos, h1]
        have h2 : ¬ y.toNat < x.toNat := by omega
        simp [h2, h1]
      · by_cases h2 : y.toNat < x.toNat
        · rw [if_neg h1, if_pos h2] at hab
          cases hab
        · rw [if_neg h1, if_neg h2] at hab
          simp only [if_neg h1, if_neg h2]
          exact ih ys hab

theorem lexLt_trans (a : List Char) :
    ∀ b c, lexLt a b = true → lexLt b c = true → lexLt a c = true := by
  induction a with
  | nil =>
    intro b c hab hbc
    cases c with
    | nil =>
      cases b with
      | nil => simpa [lexLt] using hab
      | cons y ys => simp [lexLt] at hbc
    | cons z zs => simp [lexLt]
  | cons x xs ih =>
    intro b c hab hbc
    cases b with
    | nil => simp [lexLt] at hab
    | cons y ys =>
      cases c with
      | nil => simp [lexLt] at hbc
      | cons z zs =>
        rw [lexLt] at hab hbc ⊢
        by_cases h1 : x.toNat < y.toNat
        · by_cases h2 : y.toNat < z.toNat
          · have : x.toNat < z.toNat := by omega
            simp [this]
          · by_cases h3 : z.toNat < y.toNat
            · rw [if_neg h2, if_pos h3] at hbc
              cases hbc
            · have hxz : x.toNat < z.toNat := by omega
              simp [hxz]
        · by_cases h1' : y.toNat < x.toNat
          · rw [if_neg h1, if_pos h1'] at hab
            cases hab
          · rw [if_neg h1, if_neg h1'] at hab
            by_cases h2 : y.toNat < z.toNat
            · have hxz : x.toNat < z.toNat := by omega
              simp [hxz]
            · by_cases h3 : z.toNat < y.toNat
              · rw [if_neg h2, if_pos h3] at hbc
                cases hbc
              · rw [if_neg h2, if_neg h3] at hbc
                have hxz : ¬ x.toNat < z.toNat := by omega
                have hzx : ¬ z.toNat < x.toNat := by omega
                rw [if_neg hxz, if_neg hzx]
                exact ih ys zs hab hbc

theorem lexLt_eq_of_both_false (a : List Char) :
    ∀ b, lexLt a b = false → lexLt b a = false → a = b := by
  induction a with
  | nil =>
    intro b hab _
    cases b with
    | nil => rfl
    | cons y ys => simp [lexLt] at hab
  | cons x xs ih =>
    intro b hab hba
    cases b with
    | nil => simp [lexLt] at hba
    | cons y ys =>
      rw [lexLt] at hab hba
      by_cases h1 : x.toNat < y.toNat
      · rw [if_pos h1] at hab
        cases hab
      · by_cases h2 : y.toNat < x.toNat
        · rw [if_pos h2] at hba
          cases hba
        · rw [if_neg h1, if_neg h2] at hab
          rw [if_neg h2, if_neg h1] at hba
          have hxy : x = y := char_toNat_inj x y (by omega)
          rw [hxy, ih ys hab hba]

theorem lexLe_total (a b : List Char) :
    lexLe a b = true ∨ lexLe b a = true := by
  rw [lexLe, lexLe]
  by_cases h : lexLt b a = true
  · right
    simp [lexLt_asymm b a h]
  · left
    simp only [Bool.not_eq_true] at h
    simp [h]

theorem lexLe_trans (a b c : List Char) (hab : lexLe a b = true)
    (hbc : lexLe b c = true) : lexLe a c = true := by
  rw [lexLe] at hab hbc ⊢
  simp only [Bool.not_eq_true'] at hab hbc ⊢
  by_cases hbc2 : lexLt b c = true
  · by_cases hca : lexLt c a = true
    · have hba : lexLt b a = true := lexLt_trans b c a hbc2 hca
      rw [hba] at hab
      cases hab
    · simpa using hca
  · have heq : b = c :=
      lexLt_eq_of_both_false b c (by simpa using hbc2) hbc
    subst heq
    exact hab


theorem leKey1_total (path : List String) (a b : FSNode) :
    leKey1 path a b = true ∨ leKey1 path b a = true :=
  lexLe_total _ _

theorem leKey1_trans (path : List String) (a b c : FSNode)
    (h1 : leKey1 path a b = true) (h2 : leKey1 path b c = true) :
    leKey1 path a c = true :=
  lexLe_trans _ _ _ h1 h2

theorem leKey2_total (so : List (Char × Int)) (a b : FSNode) :
    leKey2 so a b = true ∨ leKey2 so b a = true := by
  rw [leKey2, leKey2]
  rcases Int.le_total (doSortRank so a) (doSortRank so b) with h | h
  · left
    simpa using h
  · right
    simpa using h

theorem leKey2_trans (so : List (Char × Int)) (a b c : FSNode)
    (h1 : leKey2 so a b = true) (h2 : leKey2 so b c = true) :
    leKey2 so a c = true := by
  rw [leKey2] at h1 h2 ⊢
  simp only [decide_eq_true_eq] at h1 h2 ⊢
  omega

theorem leKey3_total (a b : FSNode) : leKey3 a b = true ∨ leKey3 b a = true := by
  rw [leKey3, leKey3]
  cases ha : a.isFileB <;> cases hb : b.isFileB <;> simp

theorem leKey3_trans (a b c : FSNode) (h1 : leKey3 a b = true)
    (h2 : leKey3 b c = true) : leKey3 a c = true := by
  rw [leKey3] at h1 h2 ⊢
  cases ha : a.isFileB <;> cases hb : b.isFileB <;> cases hc : c.isFileB <;>
    simp_all

theorem lexLt_append_left (u a b : List Char) :
    lexLt (u ++ a) (u ++ b) = lexLt a b := by
  induction u with
  | nil => rfl
  | cons c cu ih =>
    simp only [List.cons_append]
    rw [lexLt]
    simp [Nat.lt_irrefl, ih]

theorem lexLe_append_left (u a b : List Char) :
    lexLe (u ++ a) (u ++ b) = lexLe a b := by
  rw [lexLe, lexLe, lexLt_append_left]

theorem pathChars_append_one (p : List String) (n : String) :
    pathChars (p ++ [n]) =
      p.flatMap (fun s => '/' :: s.data) ++ ('/' :: n.data) := by
  cases p with
  | nil => simp [pathChars]
  | cons s rest =>
    simp only [List.cons_append, pathChars]
    simp [List.flatMap_append]

theorem lexLe_cons_same (c : Char) (a b : List Char) :
    lexLe (c :: a) (c :: b) = lexLe a b := by
  simpa using lexLe_append_left [c] a b

/-- The full-path sort key of two siblings differs only after a common
parent-directory prefix, so the first sort pass orders siblings by the
lowercased name. -/
theorem leKey1_eq_names (path : List String) (a b : FSNode) :
    leKey1 path a b =
      lexLe (lowerChars a.name.data) (lowerChars b.name.data) := by
  rw [leKey1, sortKeyStr, sortKeyStr, childPath, childPath,
    pathChars_append_one, pathChars_append_one]
  rw [lowerChars, lowerChars, List.map_append, List.map_append,
    List.map_cons, List.map_cons]
  rw [lexLe_append_left, lexLe_cons_same]
  rfl

theorem survivors_pairwise (cfg : Config) (path : List String)
    (cs : List FSNode) :
    (survivors cfg path cs).Pairwise (fun x y =>
      (leKey3 x y = true ∧ leKey3 y x = false) ∨
      (leKey3 x y = true ∧ leKey3 y x = true ∧
        ((leKey2 cfg.sort_order x y = true ∧ leKey2 cfg.sort_order y x = false) ∨
         (leKey2 cfg.sort_order x y = true ∧ leKey2 cfg.sort_order y x = true ∧
           ((leKey1 path x y = true ∧ leKey1 path y x = false) ∨
            (leKey1 path x y = true ∧ leKey1 path y x = true ∧ True)))))) := by
  have h1 := pairwise_insSortBy_lex (leKey1 path) (fun _ _ => True)
    (leKey1_total path) (leKey1_trans path) cs (pairwise_true cs)
  have h2 := pairwise_insSortBy_lex (leKey2 cfg.sort_order) _
    (leKey2_total cfg.sort_order) (leKey2_trans cfg.sort_order) _ h1
  have h3 := pairwise_insSortBy_lex leKey3 _ leKey3_total leKey3_trans _ h2
  rw [survivors]
  exact List.Pairwise.sublist (List.filter_sublist _) h3


/-- Claim C4: within every directory the surviving entries are emitted
with all directories before all files; within one type the first-character
ranks (underscore &rarr; -2, dot &rarr; -1, anything else its ordinal, hence
non-negative) are non-decreasing; and entries tied on type and rank are in
case-insensitive alphabetical order of their names. -/
theorem claim_C4 (F : List (List String)) (dfS ffS : String)
    (path : List String) (cs : List FSNode) :
    ((survivors (mkConfig F dfS ffS) path cs).Pairwise (fun a b =>
      (a.isFileB = true → b.isFileB = true) ∧
      (a.isFileB = b.isFileB →
        doSortRank mkSortOrder a ≤ doSortRank mkSortOrder b) ∧
      (a.isFileB = b.isFileB →
        doSortRank mkSortOrder a = doSortRank mkSortOrder b →
        lexLe (lowerChars a.name.data) (lowerChars b.name.data) = true))) ∧
    (∀ item : FSNode, ∀ c : Char, ∀ rest : List Char,
      item.name.data = c :: rest →
      doSortRank mkSortOrder item =
        if c = '_' then -2 else if c = '.' then -1 else (c.toNat : Int)) ∧
    (∀ c : Char, (0 : Int) ≤ (c.toNat : Int)) := by
  refine ⟨?_, ?_, ?_⟩
  · have hso : (mkConfig F dfS ffS).sort_order = mkSortOrder := rfl
    have h := survivors_pairwise (mkConfig F dfS ffS) path cs
    rw [hso] at h
    refine h.imp ?_
    intro a b hR
    refine ⟨?_, ?_, ?_⟩
    · intro haf
      have h3ab : leKey3 a b = true := by
        rcases hR with ⟨h3, _⟩ | ⟨h3, _, _⟩ <;> exact h3
      rw [leKey3, haf] at h3ab
      simpa using h3ab
    · intro htype
      have h3ba : leKey3 b a = true := by
        rw [leKey3, htype]
        cases b.isFileB <;> simp
      rcases hR with ⟨_, h3ba'⟩ | ⟨_, _, hR2⟩
      · rw [h3ba] at h3ba'
        cases h3ba'
      · rcases hR2 with ⟨h2ab, _⟩ | ⟨h2ab, _, _⟩ <;>
          · rw [leKey2] at h2ab
            simpa using h2ab
    · intro htype hrank
      have h3ba : leKey3 b a = true := by
        rw [leKey3, htype]
        cases b.isFileB <;> simp
      rcases hR with ⟨_, h3ba'⟩ | ⟨_, _, hR2⟩
      · rw [h3ba] at h3ba'
        cases h3ba'
      · have h2ba : leKey2 mkSortOrder b a = true := by
          rw [leKey2]
          rw [hrank]
          simp
        rcases hR2 with ⟨_, h2ba'⟩ | ⟨_, _, hR1⟩
        · rw [h2ba] at h2ba'
          cases h2ba'
        · rcases hR1 with ⟨h1ab, _⟩ | ⟨h1ab, _, _⟩ <;>
            · rw [leKey1_eq_names] at h1ab
              exact h1ab
  · intro item c rest hname
    have hm : mkSortOrder = [('_', (-2 : Int)), ('.', (-1 : Int))] := by rfl
    rw [doSortRank, hname, hm]
    by_cases h1 : c = '_'
    · subst h1
      simp [List.lookup]
    · by_cases h2 : c = '.'
      · subst h2
        simp [List.lookup]
      · have hb1 : (c == '_') = false := by simpa using h1
        have hb2 : (c == '.') = false := by simpa using h2
        simp [List.lookup, hb1, hb2, h1, h2]
  · intro c
    exact Int.natCast_nonneg _

/-- Witness for claim C4's rank characterization at a concrete entry. -/
theorem claim_C4_witness :
    doSortRank mkSortOrder (FSNode.file "_abc") = -2 :=
  ((claim_C4 [] "" "" [] []).2.1 (FSNode.file "_abc") '_' ['a', 'b', 'c']
    (by decide)).trans (by decide)


-- ------------------------------------------------------------------
-- Claim C8: leads and the shape of every emitted line
-- ------------------------------------------------------------------

theorem segsStr_append (dl : String) (xs ys : List Bool) :
    segsStr dl (xs ++ ys) = segsStr dl xs ++ segsStr dl ys := by
  induction xs with
  | nil => simp [segsStr]
  | cons b bs ih =>
    rw [List.cons_append, segsStr]
    rw [segsStr, ih]
    simp [String.append_assoc]

theorem segsStr_single (dl : String) (b : Bool) :
    segsStr dl [b] = (if b then PREFIX_VERT else PREFIX_NONE) ++ dl := by
  rw [segsStr, segsStr]
  exact String.append_empty _

theorem emitEntries_map_snd (cfg : Config) (l : List FSNode)
    (hIH : ∀ c ∈ l, ∀ path pfx,
      (addEntries cfg c path pfx).map Prod.snd = addContents cfg c path pfx) :
    ∀ idx count path pfx,
      (emitEntries cfg l idx count path pfx).map Prod.snd =
        emitLoop cfg l idx count path pfx := by
  induction l with
  | nil =>
    intro idx count path pfx
    rw [emitEntries, emitLoop]
    rfl
  | cons c rest ih =>
    intro idx count path pfx
    rw [emitEntries, emitLoop]
    simp only [List.map_cons, List.map_append]
    rw [ih (fun d hd => hIH d (List.mem_cons_of_mem _ hd))]
    by_cases hc : c.isDirB = true
    · simp [hc, hIH c (List.mem_cons_self _ _)]
    · simp [hc]

theorem addEntries_map_snd (cfg : Config) :
    ∀ node path pfx,
      (addEntries cfg node path pfx).map Prod.snd =
        addContents cfg node path pfx := by
  refine fsnode_strong_ind (fun n => ∀ path pfx,
    (addEntries cfg n path pfx).map Prod.snd = addContents cfg n path pfx) ?_
  intro n ihn path pfx
  cases n with
  | file nm =>
    rw [addEntries, addContents]
    rfl
  | dir nm cs =>
    rw [addEntries, addContents]
    refine emitEntries_map_snd cfg (survivors cfg path cs)
      (fun c hc pp ss => ?_) 0 (survivors cfg path cs).length path pfx
    have hmem : c ∈ cs := mem_survivors cfg path cs c hc
    have hsz : sizeOf c < sizeOf (FSNode.dir nm cs) := by
      have := List.sizeOf_lt_of_mem hmem
      simp only [FSNode.dir.sizeOf_spec]
      omega
    exact ihn c hsz pp ss

theorem findFrom_spec (pat : List Char) :
    ∀ l, subChars pat l = true → ∀ i : Nat,
      ∃ u v, l = u ++ pat ++ v ∧
        findFrom pat l i = ((i + u.length : Nat) : Int) ∧
        ∀ u' v', l = u' ++ pat ++ v' → u.length ≤ u'.length := by
  intro l
  induction l with
  | nil =>
    intro hsub i
    rw [subChars] at hsub
    have hpat : pat = [] := by
      cases pat with
      | nil => rfl
      | cons x xs => simp [List.isPrefixOf] at hsub
    subst hpat
    refine ⟨[], [], rfl, ?_, fun u' v' _ => by simp⟩
    rw [findFrom]
    simp [List.isPrefixOf]
  | cons c t ih =>
    intro hsub i
    rw [subChars] at hsub
    by_cases hpre : pat.isPrefixOf (c :: t) = true
    · rcases List.isPrefixOf_iff_prefix.mp hpre with ⟨v, hv⟩
      refine ⟨[], v, by simp [hv], ?_, fun u' v' _ => by simp⟩
      rw [findFrom, if_pos hpre]
      simp
    · have hpre' : pat.isPrefixOf (c :: t) = false := by
        cases hcase : pat.isPrefixOf (c :: t)
        · rfl
        · exact absurd hcase hpre
      have hsub2 : subChars pat t = true := by
        rw [hpre'] at hsub
        simpa using hsub
      rcases ih hsub2 (i + 1) with ⟨u, v, heq, hfind, hmin⟩
      refine ⟨c :: u, v, by simp [heq], ?_, ?_⟩
      · rw [findFrom, if_neg hpre, hfind]
        simp only [List.length_cons]
        omega
      · intro u' v' heq'
        cases u' with
        | nil =>
          exfalso
          apply hpre
          apply List.isPrefixOf_iff_prefix.mpr
          exact ⟨v', by simpa using heq'.symm⟩
        | cons c' u'' =>
          simp only [List.cons_append, List.cons.injEq] at heq'
          have := hmin u'' v' heq'.2
          simp only [List.length_cons]
          omega


theorem emitEntries_shape (cfg : Config) (l : List FSNode)
    (hIH : ∀ c ∈ l, ∀ (path : List String) (segs : List Bool)
      (pr : List String) (line : String),
      (pr, line) ∈ addEntries cfg c path (segsStr cfg.dir_lead segs) →
      ∃ segs2 conn nm,
        line = cfg.root_lead ++ segsStr cfg.dir_lead (segs ++ segs2) ++
          conn ++ nm ∧
        (conn = CONNECTOR_TEE ∨ conn = CONNECTOR_ELL) ∧
        pr.length = path.length + 1 + segs2.length) :
    ∀ (idx count : Nat) (path : List String) (segs : List Bool)
      (pr : List String) (line : String),
      (pr, line) ∈ emitEntries cfg l idx count path (segsStr cfg.dir_lead segs) →
      ∃ segs2 conn nm,
        line = cfg.root_lead ++ segsStr cfg.dir_lead (segs ++ segs2) ++
          conn ++ nm ∧
        (conn = CONNECTOR_TEE ∨ conn = CONNECTOR_ELL) ∧
        pr.length = path.length + 1 + segs2.length := by
  induction l with
  | nil =>
    intro idx count path segs pr line hmem
    rw [emitEntries] at hmem
    cases hmem
  | cons c rest ih =>
    intro idx count path segs pr line hmem
    rw [emitEntries] at hmem
    rcases List.mem_cons.mp hmem with heq | hmem2
    · injection heq with h1 h2
      refine ⟨[], if idx < count - 1 then CONNECTOR_TEE else CONNECTOR_ELL,
        replaceStr (if c.isDirB then cfg.dir_format else cfg.file_format)
          FORMAT_NAME c.name, ?_, ?_, ?_⟩
      · simp only [List.append_nil]
        exact h2
      · by_cases hi : idx < count - 1
        · left
          rw [if_pos hi]
        · right
          rw [if_neg hi]
      · rw [h1, childPath]
        simp
    · rcases List.mem_append.mp hmem2 with hsub | htail
      · by_cases hc : c.isDirB = true
        · rw [if_pos hc] at hsub
          have heqpfx : segsStr cfg.dir_lead segs ++
              (if idx < count - 1 then PREFIX_VERT else PREFIX_NONE) ++
              cfg.dir_lead =
              segsStr cfg.dir_lead (segs ++ [decide (idx < count - 1)]) := by
            rw [segsStr_append, segsStr_single]
            by_cases hi : idx < count - 1 <;>
              simp [hi, String.append_assoc]
          rw [heqpfx] at hsub
          rcases hIH c (List.mem_cons_self _ _) (childPath path c)
            (segs ++ [decide (idx < count - 1)]) pr line hsub with
            ⟨segs2, conn, nm, hl, hconn, hlen⟩
          refine ⟨decide (idx < count - 1) :: segs2, conn, nm, ?_, hconn, ?_⟩
          · have hgrp : (segs ++ [decide (idx < count - 1)]) ++ segs2 =
                segs ++ (decide (idx < count - 1) :: segs2) := by
              simp
            rw [hgrp] at hl
            exact hl
          · rw [childPath] at hlen
            simp only [List.length_append, List.length_cons,
              List.length_nil] at hlen ⊢
            omega
        · rw [if_neg hc] at hsub
          cases hsub
      · exact ih (fun d hd => hIH d (List.mem_cons_of_mem _ hd))
          (idx + 1) count path segs pr line htail

theorem addEntries_shape (cfg : Config) :
    ∀ (node : FSNode) (path : List String) (segs : List Bool)
      (pr : List String) (line : String),
      (pr, line) ∈ addEntries cfg node path (segsStr cfg.dir_lead segs) →
      ∃ segs2 conn nm,
        line = cfg.root_lead ++ segsStr cfg.dir_lead (segs ++ segs2) ++
          conn ++ nm ∧
        (conn = CONNECTOR_TEE ∨ conn = CONNECTOR_ELL) ∧
        pr.length = path.length + 1 + segs2.length := by
  refine fsnode_strong_ind (fun n => ∀ path segs pr line,
    (pr, line) ∈ addEntries cfg n path (segsStr cfg.dir_lead segs) → _) ?_
  intro n ihn path segs pr line hmem
  cases n with
  | file nm =>
    rw [addEntries] at hmem
    cases hmem
  | dir nm cs =>
    rw [addEntries] at hmem
    refine emitEntries_shape cfg (survivors cfg path cs)
      (fun c hc pp sg pr' line' hm' => ?_) 0 (survivors cfg path cs).length
      path segs pr line hmem
    have hmemc : c ∈ cs := mem_survivors cfg path cs c hc
    have hsz : sizeOf c < sizeOf (FSNode.dir nm cs) := by
      have := List.sizeOf_lt_of_mem hmemc
      simp only [FSNode.dir.sizeOf_spec]
      omega
    exact ihn c hsz pp sg pr' line' hm'

theorem findChild_mem (s : String) (cs : List FSNode) (c : FSNode)
    (h : findChild s cs = some c) : c ∈ cs ∧ c.name = s := by
  induction cs with
  | nil => cases h
  | cons d rest ih =>
    rw [findChild] at h
    by_cases hd : d.name = s
    · rw [if_pos hd] at h
      cases h
      exact ⟨List.mem_cons_self _ _, hd⟩
    · rw [if_neg hd] at h
      rcases ih h with ⟨hmem, hname⟩
      exact ⟨List.mem_cons_of_mem _ hmem, hname⟩

theorem findChild_of_mem_nodup (cs : List FSNode) (c : FSNode)
    (hmem : c ∈ cs) (hnodup : (cs.map FSNode.name).Nodup) :
    findChild c.name cs = some c := by
  induction cs with
  | nil => cases hmem
  | cons d rest ih =>
    have hnd : d.name ∉ rest.map FSNode.name ∧ (rest.map FSNode.name).Nodup :=
      List.nodup_cons.mp (by simpa using hnodup)
    rw [findChild]
    rcases List.mem_cons.mp hmem with hcd | hcr
    · subst hcd
      rw [if_pos rfl]
    · by_cases hd : d.name = c.name
      · exact absurd (by rw [hd]; exact List.mem_map_of_mem FSNode.name hcr)
          hnd.1
      · rw [if_neg hd]
        exact ih hcr hnd.2

theorem unique_child (cs : List FSNode) (c0 c : FSNode) (s : String)
    (hnodup : (cs.map FSNode.name).Nodup) (hfc : findChild s cs = some c0)
    (hc : c ∈ cs) (hname : c.name = s) : c = c0 := by
  have h1 := findChild_of_mem_nodup cs c hc hnodup
  rw [hname] at h1
  rw [h1] at hfc
  cases hfc
  rfl

theorem wfNode_dir_elim (nm : String) (cs : List FSNode)
    (h : wfNode (.dir nm cs) = true) :
    (cs.map FSNode.name).Nodup ∧ wfChildren cs = true := by
  rw [wfNode] at h
  rcases Bool.and_eq_true_iff.mp h with ⟨h1, h2⟩
  exact ⟨of_decide_eq_true h1, h2⟩

theorem wfChildren_mem (cs : List FSNode) (c : FSNode)
    (h : wfChildren cs = true) (hc : c ∈ cs) : wfNode c = true := by
  induction cs with
  | nil => cases hc
  | cons d rest ih =>
    rw [wfChildren] at h
    rcases Bool.and_eq_true_iff.mp h with ⟨h1, h2⟩
    rcases List.mem_cons.mp hc with hcd | hcr
    · subst hcd
      exact h1
    · exact ih h2 hcr

theorem perm_insertSorted (le : α → α → Bool) (a : α) :
    ∀ l : List α, List.Perm (insertSorted le a l) (a :: l) := by
  intro l
  induction l with
  | nil => exact List.Perm.refl _
  | cons b m ih =>
    rw [insertSorted]
    by_cases h : le a b = true
    · rw [if_pos h]
    · rw [if_neg h]
      exact (ih.cons b).trans (List.Perm.swap a b m)

theorem perm_insSortBy (le : α → α → Bool) :
    ∀ l : List α, List.Perm (insSortBy le l) l := by
  intro l
  induction l with
  | nil => exact List.Perm.refl _
  | cons a m ih =>
    rw [insSortBy]
    exact (perm_insertSorted le a (insSortBy le m)).trans (ih.cons a)

theorem perm_sortChildren (so : List (Char × Int)) (path : List String)
    (cs : List FSNode) : List.Perm (sortChildren so path cs) cs := by
  rw [sortChildren]
  exact (perm_insSortBy _ _).trans
    ((perm_insSortBy _ _).trans (perm_insSortBy _ _))

/-- Sibling-name distinctness survives the sort and the filter. -/
theorem survivors_names_nodup (cfg : Config) (path : List String)
    (cs : List FSNode) (h : (cs.map FSNode.name).Nodup) :
    ((survivors cfg path cs).map FSNode.name).Nodup := by
  have hperm := perm_sortChildren cfg.sort_order path cs
  have hsort : ((sortChildren cfg.sort_order path cs).map FSNode.name).Nodup :=
    ((hperm.map FSNode.name).nodup_iff).mpr h
  rw [survivors]
  exact List.Pairwise.sublist ((List.filter_sublist _).map FSNode.name) hsort

/-- Scanning for a name that occurs exactly once, at the position after
`pre`, reports non-last exactly when something follows it. -/
theorem notLastIn_eq (c : FSNode) :
    ∀ (pre rest : List FSNode), (∀ d ∈ pre, d.name ≠ c.name) →
      notLastIn (pre ++ c :: rest) c.name = !rest.isEmpty := by
  intro pre
  induction pre with
  | nil =>
    intro rest _
    rcases rest with _ | ⟨r, t⟩
    · simp [notLastIn]
    · simp [notLastIn]
  | cons d pre' ih =>
    intro rest hpre
    have hd : d.name ≠ c.name := hpre d (List.mem_cons_self _ _)
    rcases hX : pre' ++ c :: rest with _ | ⟨e, Y⟩
    · exact absurd hX (by simp)
    · rw [List.cons_append, hX, notLastIn, if_neg hd, ← hX]
      exact ih rest (fun x hx => hpre x (List.mem_cons_of_mem _ hx))

theorem ancFlags_cons_cons (cfg : Config) (nm : String) (cs : List FSNode)
    (path : List String) (s r : String) (rest : List String) :
    ancFlags cfg (.dir nm cs) path (s :: r :: rest) =
      match findChild s cs with
      | none => none
      | some c =>
        (ancFlags cfg c (path ++ [s]) (r :: rest)).map
          (fun bs => notLastIn (survivors cfg path cs) s :: bs) := rfl

/-- The `enumerate` loop, with the already-emitted survivors `pre` in
front: every emitted line carries the prefix flags that `ancFlags` reads
off the tree, the non-last flag of each ancestor deciding between the
vertical-bar segment and the blank one. -/
theorem emitEntries_flags (cfg : Config) (nm : String) (cs : List FSNode)
    (path : List String)
    (hnodup : (cs.map FSNode.name).Nodup)
    (hwfcs : wfChildren cs = true)
    (hIH : ∀ c ∈ cs, wfNode c = true →
      ∀ (pth : List String) (flags : List Bool) (pr : List String)
        (line : String),
      (pr, line) ∈ addEntries cfg c pth (segsStr cfg.dir_lead flags) →
      ∃ rel flags2 conn nm2,
        pr = pth ++ rel ∧
        ancFlags cfg c pth rel = some flags2 ∧
        flags2.length + 1 = rel.length ∧
        line = cfg.root_lead ++ segsStr cfg.dir_lead (flags ++ flags2) ++
          conn ++ nm2 ∧
        (conn = CONNECTOR_TEE ∨ conn = CONNECTOR_ELL)) :
    ∀ (l pre : List FSNode) (flags : List Bool) (pr : List String)
      (line : String),
      survivors cfg path cs = pre ++ l →
      (pr, line) ∈ emitEntries cfg l pre.length (pre ++ l).length path
        (segsStr cfg.dir_lead flags) →
      ∃ rel flags2 conn nm2,
        pr = path ++ rel ∧
        ancFlags cfg (.dir nm cs) path rel = some flags2 ∧
        flags2.length + 1 = rel.length ∧
        line = cfg.root_lead ++ segsStr cfg.dir_lead (flags ++ flags2) ++
          conn ++ nm2 ∧
        (conn = CONNECTOR_TEE ∨ conn = CONNECTOR_ELL) := by
  intro l
  induction l with
  | nil =>
    intro pre flags pr line hsurv hmem
    rw [emitEntries] at hmem
    cases hmem
  | cons c rest ih =>
    intro pre flags pr line hsurv hmem
    have hcsurv : c ∈ survivors cfg path cs := by
      rw [hsurv]
      exact List.mem_append.mpr (Or.inr (List.mem_cons_self _ _))
    have hcmem : c ∈ cs := mem_survivors cfg path cs c hcsurv
    rw [emitEntries] at hmem
    rcases List.mem_cons.mp hmem with heq | hmem2
    · injection heq with h1 h2
      refine ⟨[c.name], [],
        if pre.length < (pre ++ c :: rest).length - 1 then CONNECTOR_TEE
          else CONNECTOR_ELL,
        replaceStr (if c.isDirB then cfg.dir_format else cfg.file_format)
          FORMAT_NAME c.name, ?_, rfl, rfl, ?_, ?_⟩
      · rw [h1, childPath]
      · simp only [List.append_nil]
        exact h2
      · by_cases hi : pre.length < (pre ++ c :: rest).length - 1
        · left
          rw [if_pos hi]
        · right
          rw [if_neg hi]
    · rcases List.mem_append.mp hmem2 with hsub | htail
      · by_cases hc : c.isDirB = true
        · rw [if_pos hc] at hsub
          have heqpfx : segsStr cfg.dir_lead flags ++
              (if pre.length < (pre ++ c :: rest).length - 1 then PREFIX_VERT
                else PREFIX_NONE) ++ cfg.dir_lead =
              segsStr cfg.dir_lead (flags ++
                [decide (pre.length < (pre ++ c :: rest).length - 1)]) := by
            rw [segsStr_append, segsStr_single]
            by_cases hi : pre.length < (pre ++ c :: rest).length - 1 <;>
              simp [hi, String.append_assoc]
          rw [heqpfx] at hsub
          rcases hIH c hcmem (wfChildren_mem cs c hwfcs hcmem)
            (childPath path c)
            (flags ++ [decide (pre.length < (pre ++ c :: rest).length - 1)])
            pr line hsub with
            ⟨rel', flags2', conn, nm2, hpr, hanc, hlen, hl, hconn⟩
          have hrelne : rel' ≠ [] := by
            intro h0
            rw [h0] at hlen
            simp at hlen
          rcases hrelx : rel' with _ | ⟨r1, rel''⟩
          · exact absurd hrelx hrelne
          have hfc : findChild c.name cs = some c :=
            findChild_of_mem_nodup cs c hcmem hnodup
          have hnames : ((pre ++ c :: rest).map FSNode.name).Nodup := by
            have hn := survivors_names_nodup cfg path cs hnodup
            rw [hsurv] at hn
            exact hn
          have hprene : ∀ d ∈ pre, d.name ≠ c.name := by
            intro d hd hdeq
            have hsplit : (pre.map FSNode.name ++
                FSNode.name c :: rest.map FSNode.name).Nodup := by
              simpa using hnames
            rcases List.nodup_append.mp hsplit with ⟨_, _, hdisj⟩
            exact hdisj (List.mem_map_of_mem FSNode.name hd)
              (by rw [hdeq]; exact List.mem_cons_self _ _)
          have hlast : notLastIn (survivors cfg path cs) c.name =
              decide (pre.length < (pre ++ c :: rest).length - 1) := by
            rw [hsurv, notLastIn_eq c pre rest hprene]
            rcases rest with _ | ⟨e, t⟩
            · have h0 : ¬ (pre.length < (pre ++ [c]).length - 1) := by
                simp only [List.length_append, List.length_cons,
                  List.length_nil]
                omega
              simp [h0]
            · have h0 : pre.length < (pre ++ c :: e :: t).length - 1 := by
                simp only [List.length_append, List.length_cons]
                omega
              simp [h0]
          have hanc2 : ancFlags cfg c (path ++ [c.name]) (r1 :: rel'') =
              some flags2' := by
            rw [← hrelx]
            exact hanc
          refine ⟨c.name :: rel',
            notLastIn (survivors cfg path cs) c.name :: flags2',
            conn, nm2, ?_, ?_, ?_, ?_, hconn⟩
          · rw [hpr, childPath]
            simp
          · rw [hrelx, ancFlags_cons_cons, hfc]
            show (ancFlags cfg c (path ++ [c.name]) (r1 :: rel'')).map
                (fun bs => notLastIn (survivors cfg path cs) c.name :: bs) =
              some (notLastIn (survivors cfg path cs) c.name :: flags2')
            rw [hanc2]
            rfl
          · simp only [List.length_cons]
            omega
          · have hgrp : (flags ++
                [decide (pre.length < (pre ++ c :: rest).length - 1)]) ++
                flags2' =
                flags ++ (decide (pre.length < (pre ++ c :: rest).length - 1)
                  :: flags2') := by
              simp
            rw [hgrp] at hl
            rw [hlast]
            exact hl
        · rw [if_neg hc] at hsub
          cases hsub
      · have hsurv2 : survivors cfg path cs = (pre ++ [c]) ++ rest := by
          rw [hsurv]
          simp
        have hidx : pre.length + 1 = (pre ++ [c]).length := by
          simp
        have hcount : (pre ++ c :: rest).length =
            ((pre ++ [c]) ++ rest).length := by
          simp
        rw [hidx, hcount] at htail
        exact ih (pre ++ [c]) flags pr line hsurv2 htail

/-- Every entry's line carries exactly the prefix flags `ancFlags` reads
off the tree (vertical bar for each non-last ancestor, blanks for a last
one, dir-lead spaces after each), before the connector and the rendered
name. -/
theorem addEntries_flags (cfg : Config) :
    ∀ (node : FSNode) (pth : List String) (flags : List Bool)
      (pr : List String) (line : String), wfNode node = true →
      (pr, line) ∈ addEntries cfg node pth (segsStr cfg.dir_lead flags) →
      ∃ rel flags2 conn nm2,
        pr = pth ++ rel ∧
        ancFlags cfg node pth rel = some flags2 ∧
        flags2.length + 1 = rel.length ∧
        line = cfg.root_lead ++ segsStr cfg.dir_lead (flags ++ flags2) ++
          conn ++ nm2 ∧
        (conn = CONNECTOR_TEE ∨ conn = CONNECTOR_ELL) := by
  refine fsnode_strong_ind (fun n => ∀ pth flags pr line, wfNode n = true →
    (pr, line) ∈ addEntries cfg n pth (segsStr cfg.dir_lead flags) → _) ?_
  intro n ihn pth flags pr line hwf hmem
  cases n with
  | file nm =>
    rw [addEntries] at hmem
    cases hmem
  | dir nm cs =>
    obtain ⟨hnodup, hwfcs⟩ := wfNode_dir_elim nm cs hwf
    rw [addEntries] at hmem
    refine emitEntries_flags cfg nm cs pth hnodup hwfcs
      (fun c hc hwfc pth' flags' pr' line' hm' => ?_)
      (survivors cfg pth cs) [] flags pr line (by simp) hmem
    have hsz : sizeOf c < sizeOf (FSNode.dir nm cs) := by
      have hm := List.sizeOf_lt_of_mem hc
      simp only [FSNode.dir.sizeOf_spec]
      omega
    exact ihn c hsz pth' flags' pr' line' hwfc hm'

/-- Claim C8: the root lead is the (first) offset of the placeholder in
the left-trimmed directory format rendered as spaces, the dir lead its
offset in the untrimmed format; and every emitted (non-root) line is the
root lead, then exactly one two-character segment plus dir-lead spaces
per strict directory ancestor (one less than the entry's depth) — the
vertical-bar segment when that ancestor is not the last entry of its
surviving sibling group and the two-blank segment when it is, as read off
the tree by `ancFlags` — then a tee or elbow connector, then the rendered
name.  Each recursive call builds its extended prefix from its parent's,
so sibling branches are independent by construction. -/
theorem claim_C8 (fs : FSNode) (p : List String) (F : List (List String))
    (dfS ffS : String) (hwf : wfNode (nodeAtD fs p) = true) :
    (containsSub (lstripStr dfS) FORMAT_NAME = true →
      ∃ u v, (lstripStr dfS).data = u ++ FORMAT_NAME.data ++ v ∧
        (getLeads dfS).1 = spaces u.length ∧
        (∀ u' v', (lstripStr dfS).data = u' ++ FORMAT_NAME.data ++ v' →
          u.length ≤ u'.length)) ∧
    (containsSub dfS FORMAT_NAME = true →
      ∃ u v, dfS.data = u ++ FORMAT_NAME.data ++ v ∧
        (getLeads dfS).2 = spaces u.length ∧
        (∀ u' v', dfS.data = u' ++ FORMAT_NAME.data ++ v' →
          u.length ≤ u'.length)) ∧
    ((addEntries (mkConfig F dfS ffS) (nodeAtD fs p) p "").map Prod.snd =
      addContents (mkConfig F dfS ffS) (nodeAtD fs p) p "") ∧
    (∀ (pr : List String) (line : String),
      (pr, line) ∈ addEntries (mkConfig F dfS ffS) (nodeAtD fs p) p "" →
      ∃ rel flags conn nm,
        pr = p ++ rel ∧
        ancFlags (mkConfig F dfS ffS) (nodeAtD fs p) p rel = some flags ∧
        flags.length + 1 = rel.length ∧
        line = (mkConfig F dfS ffS).root_lead ++
          segsStr (mkConfig F dfS ffS).dir_lead flags ++ conn ++ nm ∧
        (conn = CONNECTOR_TEE ∨ conn = CONNECTOR_ELL)) := by
  refine ⟨?_, ?_, addEntries_map_snd _ _ _ _, ?_⟩
  · intro hsub
    rcases findFrom_spec FORMAT_NAME.data (lstripStr dfS).data hsub 0 with
      ⟨u, v, heq, hfind, hmin⟩
    refine ⟨u, v, heq, ?_, hmin⟩
    rw [getLeads]
    show spaces (pyFind (lstripStr dfS) FORMAT_NAME).toNat = spaces u.length
    rw [pyFind, hfind]
    simp
  · intro hsub
    rcases findFrom_spec FORMAT_NAME.data dfS.data hsub 0 with
      ⟨u, v, heq, hfind, hmin⟩
    refine ⟨u, v, heq, ?_, hmin⟩
    rw [getLeads]
    show spaces (pyFind dfS FORMAT_NAME).toNat = spaces u.length
    rw [pyFind, hfind]
    simp
  · intro pr line hmem
    have h := addEntries_flags (mkConfig F dfS ffS) (nodeAtD fs p) p [] pr line
      hwf (by simpa [segsStr] using hmem)
    simpa using h

/-- Witness for claim C8: a format that starts with the placeholder has
an empty root lead. -/
theorem claim_C8_witness : (getLeads "$NAME").1 = "" := by
  obtain ⟨u, v, hdata, hlead, hmin⟩ :=
    (claim_C8 (.dir "" []) [] [] "$NAME" "" (by decide)).1 (by decide)
  have h0 : u.length = 0 := Nat.le_zero.mp (by simpa using hmin [] [] (by decide))
  rw [hlead, h0]
  decide


-- ------------------------------------------------------------------
-- Claim C6: the root line
-- ------------------------------------------------------------------

theorem dropWhile_head_false (p : α → Bool) :
    ∀ (l : List α) (hd : α) (rest : List α),
      l.dropWhile p = hd :: rest → p hd = false := by
  intro l
  induction l with
  | nil =>
    intro hd rest h
    simp [List.dropWhile] at h
  | cons a t ih =>
    intro hd rest h
    rw [List.dropWhile] at h
    by_cases hpa : p a = true
    · rw [hpa] at h
      exact ih hd rest h
    · have hpa' : p a = false := by
        cases hcase : p a
        · rfl
        · exact absurd hcase hpa
      rw [hpa'] at h
      simp at h
      rw [← h.1]
      exact hpa'

theorem dropWhile_ne_nil (p : α → Bool) :
    ∀ (l : List α) (x : α), x ∈ l → p x = false → l.dropWhile p ≠ [] := by
  intro l
  induction l with
  | nil =>
    intro x hx
    cases hx
  | cons a t ih =>
    intro x hx hpx
    rw [List.dropWhile]
    rcases List.mem_cons.mp hx with hxa | hxt
    · subst hxa
      rw [hpx]
      simp
    · by_cases hpa : p a = true
      · rw [hpa]
        exact ih x hxt hpx
      · have hpa' : p a = false := by
          cases hcase : p a
          · rfl
          · exact absurd hcase hpa
        rw [hpa']
        simp

/-- The sanitized directory format always contains the placeholder. -/
theorem sanitizeFormats_fst_contains (df ff : String) :
    containsSub (sanitizeFormats df ff).1 FORMAT_NAME = true := by
  rw [sanitizeFormats]
  by_cases hc : df ≠ "" ∧ containsSub df FORMAT_NAME = true
  · simp only [if_pos hc]
    exact hc.2
  · simp only [if_neg hc]
    decide

theorem head_replaceChars_not_ws (pat rep : List Char) (c : Char)
    (cs : List Char) (hc : c.isWhitespace = false)
    (hrep : ∃ c' cs', rep = c' :: cs' ∧ Char.isWhitespace c' = false) :
    ∃ c' cs', replaceChars pat rep (c :: cs) = c' :: cs' ∧
      Char.isWhitespace c' = false := by
  rw [replaceChars]
  by_cases h : pat ≠ [] ∧ pat.isPrefixOf (c :: cs) = true
  · rw [dif_pos h]
    rcases hrep with ⟨c', cs', hrepeq, hws⟩
    exact ⟨c', cs' ++ replaceChars pat rep ((c :: cs).drop pat.length),
      by rw [hrepeq]; rfl, hws⟩
  · rw [dif_neg h]
    exact ⟨c, replaceChars pat rep cs, rfl, hc⟩

/-- Claim C6 (amended): for every valid start directory the first line is
exactly the left-trimmed directory format with the placeholder replaced
by the root's base name, with no connector and no prefix; and it begins
with a non-whitespace character provided the root's base name does (a
base name beginning with whitespace is substituted verbatim, so the line
then starts with that whitespace). -/
theorem claim_C6_amended (fs : FSNode) (cwd : List String)
    (sd : Option RawPath) (fl : List RawPath) (df ff : String)
    (p : List String) (lines : List String)
    (hs : sanitizeStartDir fs cwd sd = .ok p)
    (hl : buildLines fs cwd sd fl df ff = .ok lines) :
    lines.head? = some (replaceStr (lstripStr (sanitizeFormats df ff).1)
      FORMAT_NAME (pathName p)) ∧
    (∀ c rest, (pathName p).data = c :: rest → c.isWhitespace = false →
      ∃ c' rest',
        (replaceStr (lstripStr (sanitizeFormats df ff).1) FORMAT_NAME
          (pathName p)).data = c' :: rest' ∧ c'.isWhitespace = false) := by
  constructor
  · rw [buildLines, hs] at hl
    have hlines : lines = linesFor fs p (sanitizeFilterList p fl)
        (sanitizeFormats df ff).1 (sanitizeFormats df ff).2 := by
      cases hl
      rfl
    rw [hlines, linesFor, addRoot]
    rfl
  · intro c rest hname hcws
    have hsub := sanitizeFormats_fst_contains df ff
    rcases findFrom_spec FORMAT_NAME.data (sanitizeFormats df ff).1.data
      hsub 0 with ⟨u, v, heq, _, _⟩
    have hdollar : '$' ∈ (sanitizeFormats df ff).1.data := by
      rw [heq]
      simp only [List.mem_append]
      exact Or.inl (Or.inr (by decide))
    have hne : ((sanitizeFormats df ff).1.data).dropWhile Char.isWhitespace
        ≠ [] := dropWhile_ne_nil _ _ '$' hdollar (by decide)
    rcases hhd : ((sanitizeFormats df ff).1.data).dropWhile Char.isWhitespace
      with _ | ⟨hd, tl⟩
    · exact absurd hhd hne
    · have hhdws : Char.isWhitespace hd = false :=
        dropWhile_head_false _ _ hd tl hhd
      have : (lstripStr (sanitizeFormats df ff).1).data = hd :: tl := by
        rw [lstripStr]
        exact hhd
      rw [replaceStr]
      show ∃ c' rest', replaceChars FORMAT_NAME.data (pathName p).data
        (lstripStr (sanitizeFormats df ff).1).data = c' :: rest' ∧
        c'.isWhitespace = false
      rw [this]
      exact head_replaceChars_not_ws _ _ hd tl hhdws
        ⟨c, rest, hname, hcws⟩

/-- Counterexample to claim C6 as stated: a directory legitimately named
`" R"` (leading space) is a valid start directory whose first output line
begins with whitespace. -/
theorem claim_C6_cex :
    buildTree (.dir "" [.dir " R" []]) [] (some ⟨true, [" R"]⟩) [] "" "" =
      .ok " R/" ∧
    (" R/").data.head? = some ' ' ∧ (' ').isWhitespace = true := by
  refine ⟨?_, by decide, by decide⟩
  simp +decide [buildTree, buildLines, linesFor, mkConfig, sanitizeStartDir, isDirRaw, walkSegs,
    sanitizeFilterList, sanitizeFormats, getLeads, mkSortOrder, addRoot, nodeAtD,
    resolvePath, resolveSegs, isDirAt, lookupNode, findChild, addContents,
    emitLoop, survivors, sortChildren, insSortBy, insertSorted, leKey1, leKey2,
    leKey3, sortKeyStr, lowerChars, pathChars, childPath, doSortRank, lexLe,
    lexLt, replaceStr, replaceChars, lstripStr, pyFind, findFrom, spaces,
    FSNode.name, FSNode.isDirB, FSNode.isFileB, pathName,
    FORMAT_NAME, FORMAT_DIR, FORMAT_FILE, CONNECTOR_TEE, CONNECTOR_ELL,
    PREFIX_VERT, PREFIX_NONE, CHAR_VERT, CHAR_HORZ, CHAR_TEE, CHAR_ELL,
    CHAR_SPACE, SORT_ORDER, String.intercalate]
  rfl

/-- The line list of the end-to-end example (used as a concrete instance
below). -/
theorem buildLines_fsC1 :
    buildLines fsC1 [] (some ⟨true, ["R"]⟩) [] "" "" =
      .ok ["R/", "├─ A/", "│  └─ x.txt", "└─ b.txt"] := by
  simp +decide [buildLines, linesFor, mkConfig, sanitizeStartDir, isDirRaw, walkSegs,
    sanitizeFilterList, sanitizeFormats, getLeads, mkSortOrder, addRoot, nodeAtD,
    resolvePath, resolveSegs, isDirAt, lookupNode, findChild, addContents,
    emitLoop, survivors, sortChildren, insSortBy, insertSorted, leKey1, leKey2,
    leKey3, sortKeyStr, lowerChars, pathChars, childPath, doSortRank, lexLe,
    lexLt, replaceStr, replaceChars, lstripStr, pyFind, findFrom, spaces,
    FSNode.name, FSNode.isDirB, FSNode.isFileB, pathName, fsC1,
    FORMAT_NAME, FORMAT_DIR, FORMAT_FILE, CONNECTOR_TEE, CONNECTOR_ELL,
    PREFIX_VERT, PREFIX_NONE, CHAR_VERT, CHAR_HORZ, CHAR_TEE, CHAR_ELL,
    CHAR_SPACE, SORT_ORDER]

/-- Witness for the amended claim C6 at the end-to-end example. -/
theorem claim_C6_witness :
    ∃ c' rest',
      (replaceStr (lstripStr (sanitizeFormats "" "").1) FORMAT_NAME
        (pathName ["R"])).data = c' :: rest' ∧ c'.isWhitespace = false :=
  (claim_C6_amended fsC1 [] (some ⟨true, ["R"]⟩) [] "" "" ["R"]
    ["R/", "├─ A/", "│  └─ x.txt", "└─ b.txt"] (by rfl)
    buildLines_fsC1).2 'R' [] (by decide) (by decide)


-- ------------------------------------------------------------------
-- Claim C10: the root itself is never subject to filtering
-- ------------------------------------------------------------------

theorem survivors_filter_congr (cfg : Config) (F G : List (List String))
    (q : List String) (cs : List FSNode)
    (h : ∀ r : List String, q.length < r.length → (r ∈ F ↔ r ∈ G)) :
    survivors { cfg with filter_list := F } q cs =
      survivors { cfg with filter_list := G } q cs := by
  rw [survivors, survivors]
  apply List.filter_congr
  intro c _
  have hlen : q.length < (childPath q c).length := by
    rw [childPath]
    simp
  have hmem := h (childPath q c) hlen
  by_cases hF : childPath q c ∈ F
  · have hG : childPath q c ∈ G := hmem.mp hF
    simp [List.elem_iff, hF, hG]
  · have hG : childPath q c ∉ G := fun hg => hF (hmem.mpr hg)
    simp [List.elem_iff, hF, hG]

theorem emitLoop_filter_inv (cfg : Config) (F G : List (List String))
    (l : List FSNode)
    (hIH : ∀ c ∈ l, ∀ (q : List String) (pfx : String),
      (∀ r : List String, q.length < r.length → (r ∈ F ↔ r ∈ G)) →
      addContents { cfg with filter_list := F } c q pfx =
        addContents { cfg with filter_list := G } c q pfx) :
    ∀ (idx count : Nat) (q : List String) (pfx : String),
      (∀ r : List String, q.length < r.length → (r ∈ F ↔ r ∈ G)) →
      emitLoop { cfg with filter_list := F } l idx count q pfx =
        emitLoop { cfg with filter_list := G } l idx count q pfx := by
  induction l with
  | nil =>
    intro idx count q pfx _
    rw [emitLoop, emitLoop]
  | cons c rest ih =>
    intro idx count q pfx hq
    rw [emitLoop, emitLoop]
    have hrec := ih (fun d hd => hIH d (List.mem_cons_of_mem _ hd))
      (idx + 1) count q pfx hq
    have hsub : (∀ r : List String, (childPath q c).length < r.length →
        (r ∈ F ↔ r ∈ G)) := by
      intro r hr
      apply hq
      rw [childPath] at hr
      simp only [List.length_append, List.length_cons, List.length_nil] at hr
      omega
    by_cases hc : c.isDirB = true
    · simp [hc, hrec, hIH c (List.mem_cons_self _ _) (childPath q c) _ hsub]
    · simp [hc, hrec]

theorem addContents_filter_inv (cfg : Config) (F G : List (List String)) :
    ∀ (node : FSNode) (q : List String) (pfx : String),
      (∀ r : List String, q.length < r.length → (r ∈ F ↔ r ∈ G)) →
      addContents { cfg with filter_list := F } node q pfx =
        addContents { cfg with filter_list := G } node q pfx := by
  refine fsnode_strong_ind (fun n => ∀ q pfx,
    (∀ r : List String, q.length < r.length → (r ∈ F ↔ r ∈ G)) →
    addContents { cfg with filter_list := F } n q pfx =
      addContents { cfg with filter_list := G } n q pfx) ?_
  intro n ihn q pfx hq
  cases n with
  | file nm => rw [addContents, addContents]
  | dir nm cs =>
    rw [addContents, addContents]
    rw [survivors_filter_congr cfg F G q cs hq]
    refine emitLoop_filter_inv cfg F G _ (fun c hc q' pfx' hq' => ?_)
      0 _ q pfx hq
    have hmemc : c ∈ cs := by
      have := mem_survivors { cfg with filter_list := G } q cs c hc
      exact this
    have hsz : sizeOf c < sizeOf (FSNode.dir nm cs) := by
      have := List.sizeOf_lt_of_mem hmemc
      simp only [FSNode.dir.sizeOf_spec]
      omega
    exact ihn c hsz q' pfx' hq'

/-- Claim C10: the root line is always emitted and the root's children
always enumerated; filter membership is only ever tested against paths
strictly below the root, so removing the root path itself from the
sanitized filter set never changes the output. -/
theorem claim_C10 (fs : FSNode) (cwd : List String) (sd : Option RawPath)
    (fl : List RawPath) (p : List String) (F : List (List String))
    (df ff dfS ffS : String) :
    (linesFor fs p F dfS ffS).head? = some (addRoot dfS p) ∧
    linesFor fs p F dfS ffS =
      linesFor fs p (F.filter (fun r => r ≠ p)) dfS ffS ∧
    (sanitizeStartDir fs cwd sd = .ok p →
      buildLines fs cwd sd fl df ff =
        .ok (linesFor fs p (sanitizeFilterList p fl)
          (sanitizeFormats df ff).1 (sanitizeFormats df ff).2)) := by
  refine ⟨rfl, ?_, ?_⟩
  · rw [linesFor, linesFor]
    have hmk1 : mkConfig F dfS ffS =
        { mkConfig F dfS ffS with filter_list := F } := rfl
    have hmk2 : mkConfig (F.filter (fun r => r ≠ p)) dfS ffS =
        { mkConfig F dfS ffS with
          filter_list := F.filter (fun r => r ≠ p) } := rfl
    rw [hmk1, hmk2]
    rw [addContents_filter_inv (mkConfig F dfS ffS) F
      (F.filter (fun r => r ≠ p)) (nodeAtD fs p) p ""]
    intro r hr
    constructor
    · intro hrF
      apply List.mem_filter.mpr
      refine ⟨hrF, ?_⟩
      simp only [decide_eq_true_eq]
      intro heq
      rw [heq] at hr
      omega
    · intro hrG
      exact (List.mem_filter.mp hrG).1
  · intro hs
    rw [buildLines, hs]

/-- Witness for claim C10: a filter list containing exactly the root path
leaves the output unchanged. -/
theorem claim_C10_witness :
    buildLines fsC1 [] (some ⟨true, ["R"]⟩) [⟨true, ["R"]⟩] "" "" =
      .ok (linesFor fsC1 ["R"] (sanitizeFilterList ["R"] [⟨true, ["R"]⟩])
        (sanitizeFormats "" "").1 (sanitizeFormats "" "").2) :=
  (claim_C10 fsC1 [] (some ⟨true, ["R"]⟩) [⟨true, ["R"]⟩] ["R"]
    (sanitizeFilterList ["R"] [⟨true, ["R"]⟩]) "" "" "" "").2.2 (by rfl)


-- ------------------------------------------------------------------
-- Claim C3: what filtering removes
-- ------------------------------------------------------------------

mutual

/-- The sequence of entry paths the walk visits (first components of
`addEntries`), defined directly on the tree. -/
def entryPaths (F : List (List String)) (so : List (Char × Int)) :
    FSNode → List String → List (List String)
  | .file _, _ => []
  | .dir _ cs, q =>
    entryPathsList F so
      ((sortChildren so q cs).filter
        (fun c => !F.contains (childPath q c))) q
termination_by n _ => 1 + sizeOf n
decreasing_by
  refine Nat.lt_of_le_of_lt
    (Nat.le_trans (sizeOf_filter_le _ _) (Nat.le_of_eq (sizeOf_sortChildren _ _ _))) ?_
  simp only [FSNode.dir.sizeOf_spec]
  omega

def entryPathsList (F : List (List String)) (so : List (Char × Int)) :
    List FSNode → List String → List (List String)
  | [], _ => []
  | c :: rest, q =>
    (childPath q c :: entryPaths F so c (childPath q c)) ++
      entryPathsList F so rest q
termination_by l _ => sizeOf l
decreasing_by
  all_goals first
    | exact sizeOf_head_lt _ _
    | (simp only [List.cons.sizeOf_spec]; omega)

end

theorem filter_empty_contains (q : List String) (l : List FSNode) :
    (l.filter (fun c => !([] : List (List String)).contains (childPath q c)))
      = l := by
  apply List.filter_eq_self.mpr
  intro c _
  rfl


theorem emitEntries_fst (cfg : Config) (l : List FSNode)
    (hIH : ∀ c ∈ l, ∀ (q : List String) (pfx : String),
      (addEntries cfg c q pfx).map Prod.fst =
        entryPaths cfg.filter_list cfg.sort_order c q) :
    ∀ (idx count : Nat) (q : List String) (pfx : String),
      (emitEntries cfg l idx count q pfx).map Prod.fst =
        entryPathsList cfg.filter_list cfg.sort_order l q := by
  induction l with
  | nil =>
    intro idx count q pfx
    rw [emitEntries, entryPathsList]
    rfl
  | cons c rest ih =>
    intro idx count q pfx
    rw [emitEntries, entryPathsList]
    simp only [List.map_cons, List.map_append, List.cons_append]
    rw [ih (fun d hd => hIH d (List.mem_cons_of_mem _ hd)) (idx + 1) count q pfx]
    by_cases hc : c.isDirB = true
    · simp [hc, hIH c (List.mem_cons_self _ _)]
    · cases c with
      | file nm => simp [hc, entryPaths]
      | dir nm cs => simp [FSNode.isDirB] at hc

theorem addEntries_fst (cfg : Config) :
    ∀ (node : FSNode) (q : List String) (pfx : String),
      (addEntries cfg node q pfx).map Prod.fst =
        entryPaths cfg.filter_list cfg.sort_order node q := by
  refine fsnode_strong_ind (fun n => ∀ q pfx,
    (addEntries cfg n q pfx).map Prod.fst =
      entryPaths cfg.filter_list cfg.sort_order n q) ?_
  intro n ihn q pfx
  cases n with
  | file nm =>
    rw [addEntries, entryPaths]
    rfl
  | dir nm cs =>
    rw [addEntries, entryPaths]
    have hsurv : survivors cfg q cs =
        (sortChildren cfg.sort_order q cs).filter
          (fun c => !cfg.filter_list.contains (childPath q c)) := rfl
    rw [← hsurv]
    refine emitEntries_fst cfg (survivors cfg q cs) (fun c hc q' pfx' => ?_)
      0 (survivors cfg q cs).length q pfx
    have hmemc : c ∈ cs := mem_survivors cfg q cs c hc
    have hsz : sizeOf c < sizeOf (FSNode.dir nm cs) := by
      have := List.sizeOf_lt_of_mem hmemc
      simp only [FSNode.dir.sizeOf_spec]
      omega
    exact ihn c hsz q' pfx'

theorem entryPaths_extend (F : List (List String)) (so : List (Char × Int)) :
    ∀ (node : FSNode) (q r : List String),
      r ∈ entryPaths F so node q → ∃ t, t ≠ [] ∧ r = q ++ t := by
  refine fsnode_strong_ind (fun n => ∀ q r,
    r ∈ entryPaths F so n q → ∃ t, t ≠ [] ∧ r = q ++ t) ?_
  intro n ihn q r hr
  cases n with
  | file nm =>
    rw [entryPaths] at hr
    cases hr
  | dir nm cs =>
    rw [entryPaths] at hr
    have hmemcs : ∀ c ∈ (sortChildren so q cs).filter
        (fun c => !F.contains (childPath q c)), c ∈ cs := by
      intro c hc
      exact mem_sortChildren so q cs c (List.mem_filter.mp hc).1
    revert hr
    generalize hL : (sortChildren so q cs).filter
      (fun c => !F.contains (childPath q c)) = L
    rw [hL] at hmemcs
    clear hL
    induction L with
    | nil =>
      intro hr
      rw [entryPathsList] at hr
      cases hr
    | cons c rest ihl =>
      intro hr
      rw [entryPathsList] at hr
      rcases List.mem_append.mp hr with hblk | hrest
      · rcases List.mem_cons.mp hblk with heq | hsub
        · exact ⟨[c.name], by simp, by rw [heq, childPath]⟩
        · have hsz : sizeOf c < sizeOf (FSNode.dir nm cs) := by
            have := List.sizeOf_lt_of_mem (hmemcs c (List.mem_cons_self _ _))
            simp only [FSNode.dir.sizeOf_spec]
            omega
          rcases ihn c hsz (childPath q c) r hsub with ⟨t, htne, hteq⟩
          refine ⟨c.name :: t, by simp, ?_⟩
          rw [hteq, childPath]
          simp
      · exact ihl (fun d hd => hmemcs d (List.mem_cons_of_mem _ hd)) hrest

theorem findChild_ne_none (cs : List FSNode) (c : FSNode) (hmem : c ∈ cs) :
    findChild c.name cs ≠ none := by
  induction cs with
  | nil => cases hmem
  | cons d rest ih =>
    rw [findChild]
    by_cases hd : d.name = c.name
    · rw [if_pos hd]
      simp
    · rw [if_neg hd]
      rcases List.mem_cons.mp hmem with hcd | hcr
      · exact absurd (by rw [hcd]) hd
      · exact ih hcr


theorem child_nowhere (nm : String) (cs : List FSNode) (q fp : List String)
    (c : FSNode) (hc : c ∈ cs) (hnodup : (cs.map FSNode.name).Nodup)
    (hno : ∀ rel, rel ≠ [] → fp = q ++ rel →
      lookupNode (.dir nm cs) rel = none) :
    ∀ rel₂, rel₂ ≠ [] → fp = childPath q c ++ rel₂ →
      lookupNode c rel₂ = none := by
  intro rel₂ _ heq₂
  have heq : fp = q ++ (c.name :: rel₂) := by
    rw [heq₂, childPath]
    simp
  have hlk := hno (c.name :: rel₂) (by simp) heq
  rw [lookupNode] at hlk
  simp only [findChild_of_mem_nodup cs c hc hnodup] at hlk
  exact hlk

theorem cp_ne_fp_of_nowhere (nm : String) (cs : List FSNode)
    (q fp : List String)
    (hno : ∀ rel, rel ≠ [] → fp = q ++ rel →
      lookupNode (.dir nm cs) rel = none) :
    ∀ c ∈ cs, childPath q c ≠ fp := by
  intro c hc heq
  have heqr : fp = q ++ [c.name] := by
    rw [← heq, childPath]
  have hlk := hno [c.name] (by simp) heqr
  rw [lookupNode] at hlk
  rcases hfc : findChild c.name cs with _ | d
  · exact findChild_ne_none cs c hc hfc
  · simp only [hfc, lookupNode] at hlk
    cases hlk

theorem survivors_noop (cfg : Config) (fp : List String) (nm : String)
    (cs : List FSNode) (q : List String)
    (hno : ∀ rel, rel ≠ [] → fp = q ++ rel →
      lookupNode (.dir nm cs) rel = none) :
    survivors { cfg with filter_list := [fp] } q cs =
      sortChildren cfg.sort_order q cs := by
  rw [survivors]
  apply List.filter_eq_self.mpr
  intro c hc
  have hne := cp_ne_fp_of_nowhere nm cs q fp hno c (mem_sortChildren _ _ _ _ hc)
  simp [List.elem_iff, hne]

theorem entryPaths_inert (so : List (Char × Int)) (fp : List String) :
    ∀ (node : FSNode) (q : List String), wfNode node = true →
      (∀ rel, rel ≠ [] → fp = q ++ rel → lookupNode node rel = none) →
      entryPaths [fp] so node q = entryPaths [] so node q := by
  refine fsnode_strong_ind (fun n => ∀ q, wfNode n = true →
    (∀ rel, rel ≠ [] → fp = q ++ rel → lookupNode n rel = none) →
    entryPaths [fp] so n q = entryPaths [] so n q) ?_
  intro n ihn q hwf hno
  cases n with
  | file nm => rw [entryPaths, entryPaths]
  | dir nm cs =>
    obtain ⟨hnodup, hwfcs⟩ := wfNode_dir_elim nm cs hwf
    rw [entryPaths, entryPaths, filter_empty_contains]
    have hnoop : (sortChildren so q cs).filter
        (fun c => !([fp] : List (List String)).contains (childPath q c)) =
        sortChildren so q cs := by
      apply List.filter_eq_self.mpr
      intro c hc
      have hne := cp_ne_fp_of_nowhere nm cs q fp hno c
        (mem_sortChildren _ _ _ _ hc)
      simp [List.elem_iff, hne]
    rw [hnoop]
    have hmemcs : ∀ c ∈ sortChildren so q cs, c ∈ cs :=
      fun c hc => mem_sortChildren _ _ _ _ hc
    revert hmemcs
    generalize sortChildren so q cs = L
    intro hmemcs
    induction L with
    | nil => rw [entryPathsList, entryPathsList]
    | cons c rest ihl =>
      rw [entryPathsList, entryPathsList]
      have hcmem : c ∈ cs := hmemcs c (List.mem_cons_self _ _)
      have hsz : sizeOf c < sizeOf (FSNode.dir nm cs) := by
        have := List.sizeOf_lt_of_mem hcmem
        simp only [FSNode.dir.sizeOf_spec]
        omega
      rw [ihn c hsz (childPath q c) (wfChildren_mem cs c hwfcs hcmem)
        (child_nowhere nm cs q fp c hcmem hnodup hno)]
      rw [ihl (fun d hd => hmemcs d (List.mem_cons_of_mem _ hd))]

theorem emitLoop_congr_children (cfg : Config) (FA FB : List (List String))
    (q : List String) (l : List FSNode)
    (hIH : ∀ c ∈ l, ∀ pfx' : String,
      addContents { cfg with filter_list := FA } c (childPath q c) pfx' =
        addContents { cfg with filter_list := FB } c (childPath q c) pfx') :
    ∀ (idx count : Nat) (pfx : String),
      emitLoop { cfg with filter_list := FA } l idx count q pfx =
        emitLoop { cfg with filter_list := FB } l idx count q pfx := by
  induction l with
  | nil =>
    intro idx count pfx
    rw [emitLoop, emitLoop]
  | cons c rest ih =>
    intro idx count pfx
    rw [emitLoop, emitLoop]
    have hrec := ih (fun d hd => hIH d (List.mem_cons_of_mem _ hd))
      (idx + 1) count pfx
    by_cases hc : c.isDirB = true
    · simp [hc, hrec, hIH c (List.mem_cons_self _ _)]
    · simp [hc, hrec]

theorem addContents_inert (cfg : Config) (fp : List String) :
    ∀ (node : FSNode) (q : List String) (pfx : String), wfNode node = true →
      (∀ rel, rel ≠ [] → fp = q ++ rel → lookupNode node rel = none) →
      addContents { cfg with filter_list := [fp] } node q pfx =
        addContents { cfg with filter_list := [] } node q pfx := by
  refine fsnode_strong_ind (fun n => ∀ q pfx, wfNode n = true →
    (∀ rel, rel ≠ [] → fp = q ++ rel → lookupNode n rel = none) →
    addContents { cfg with filter_list := [fp] } n q pfx =
      addContents { cfg with filter_list := [] } n q pfx) ?_
  intro n ihn q pfx hwf hno
  cases n with
  | file nm => rw [addContents, addContents]
  | dir nm cs =>
    obtain ⟨hnodup, hwfcs⟩ := wfNode_dir_elim nm cs hwf
    rw [addContents, addContents]
    have hA : survivors { cfg with filter_list := [fp] } q cs =
        sortChildren cfg.sort_order q cs :=
      survivors_noop cfg fp nm cs q hno
    have hB : survivors { cfg with filter_list := [] } q cs =
        sortChildren cfg.sort_order q cs := by
      rw [survivors]
      exact filter_empty_contains q _
    rw [hA, hB]
    refine emitLoop_congr_children cfg [fp] [] q _ (fun c hc pfx' => ?_)
      0 _ pfx
    have hcmem : c ∈ cs := mem_sortChildren _ _ _ _ hc
    have hsz : sizeOf c < sizeOf (FSNode.dir nm cs) := by
      have := List.sizeOf_lt_of_mem hcmem
      simp only [FSNode.dir.sizeOf_spec]
      omega
    exact ihn c hsz (childPath q c) pfx' (wfChildren_mem cs c hwfcs hcmem)
      (child_nowhere nm cs q fp c hcmem hnodup hno)


theorem fp_not_prefix_cp (q : List String) (s : String) (rel' : List String)
    (c : FSNode) (hne : childPath q c ≠ q ++ s :: rel') :
    ¬ (q ++ s :: rel') <+: childPath q c := by
  intro hpre
  have hlen := hpre.length_le
  rw [childPath] at hlen
  simp only [List.length_append, List.length_cons, List.length_nil] at hlen
  have hrel : rel' = [] := List.length_eq_zero.mp (by omega)
  subst hrel
  exact hne (hpre.eq_of_length (by rw [childPath]; simp)).symm

theorem entryPaths_remove (so : List (Char × Int)) :
    ∀ (node : FSNode) (q rel : List String), wfNode node = true → rel ≠ [] →
      lookupNode node rel ≠ none →
      entryPaths [q ++ rel] so node q =
        (entryPaths [] so node q).filter
          (fun r => !(decide ((q ++ rel) <+: r))) := by
  refine fsnode_strong_ind (fun n => ∀ q rel, wfNode n = true → rel ≠ [] →
    lookupNode n rel ≠ none → entryPaths [q ++ rel] so n q =
      (entryPaths [] so n q).filter (fun r => !(decide ((q ++ rel) <+: r)))) ?_
  intro n ihn q rel hwf hrelne hlk
  cases n with
  | file nm =>
    cases rel with
    | nil => exact absurd rfl hrelne
    | cons s rel' =>
      rw [lookupNode] at hlk
      exact absurd rfl hlk
  | dir nm cs =>
    cases rel with
    | nil => exact absurd rfl hrelne
    | cons s rel' =>
      rw [lookupNode] at hlk
      rcases hfc : findChild s cs with _ | c0
      · simp only [hfc] at hlk
        exact absurd rfl hlk
      · simp only [hfc] at hlk
        obtain ⟨hc0mem, hc0name⟩ := findChild_mem s cs c0 hfc
        obtain ⟨hnodup, hwfcs⟩ := wfNode_dir_elim nm cs hwf
        rw [entryPaths, entryPaths, filter_empty_contains]
        have hmemcs : ∀ c ∈ sortChildren so q cs, c ∈ cs :=
          fun c hc => mem_sortChildren _ _ _ _ hc
        revert hmemcs
        generalize sortChildren so q cs = L
        intro hmemcs
        induction L with
        | nil =>
          rw [List.filter_nil, entryPathsList, entryPathsList, List.filter_nil]
        | cons c rest ihl =>
          have hcmemcs : c ∈ cs := hmemcs c (List.mem_cons_self _ _)
          have hwfc : wfNode c = true := wfChildren_mem cs c hwfcs hcmemcs
          have hszc : sizeOf c < sizeOf (FSNode.dir nm cs) := by
            have := List.sizeOf_lt_of_mem hcmemcs
            simp only [FSNode.dir.sizeOf_spec]
            omega
          have htail := ihl (fun d hd => hmemcs d (List.mem_cons_of_mem _ hd))
          rw [entryPathsList, List.filter_append, List.filter_cons]
          by_cases hcp : childPath q c = q ++ s :: rel'
          · have hpf : (!([q ++ s :: rel'] : List (List String)).contains
                (childPath q c)) = false := by
              simp [List.elem_iff, hcp]
            rw [hpf]
            simp only [Bool.false_eq_true, if_false, ite_false, if_neg,
              not_false_eq_true]
            have hblock : (childPath q c ::
                entryPaths [] so c (childPath q c)).filter
                (fun r => !(decide ((q ++ s :: rel') <+: r))) = [] := by
              apply List.filter_eq_nil_iff.mpr
              intro r hr
              rcases List.mem_cons.mp hr with hre | hrs
              · subst hre
                simp [hcp]
              · rcases entryPaths_extend [] so c (childPath q c) r hrs with
                  ⟨t, _, hteq⟩
                rw [hteq, hcp]
                simp
            rw [hblock, List.nil_append]
            exact htail
          · have hpf : (!([q ++ s :: rel'] : List (List String)).contains
                (childPath q c)) = true := by
              simp [List.elem_iff, hcp]
            rw [hpf]
            simp only [if_true, ite_true]
            rw [entryPathsList]
            have hcpkeep : (!(decide ((q ++ s :: rel') <+: childPath q c)))
                = true := by
              simp [fp_not_prefix_cp q s rel' c hcp]
            by_cases hcname : c.name = s
            · have hceq : c = c0 := unique_child cs c0 c s hnodup hfc hcmemcs hcname
              have hrel' : rel' ≠ [] := by
                intro h0
                subst h0
                apply hcp
                rw [childPath, hcname]
              have hfpeq : childPath q c ++ rel' = q ++ s :: rel' := by
                rw [childPath, hcname]
                simp
              have hrec := ihn c hszc (childPath q c) rel' hwfc hrel'
                (by rw [hceq]; exact hlk)
              rw [hfpeq] at hrec
              rw [hrec, htail]
              have hhd : (childPath q c ::
                  (entryPaths [] so c (childPath q c)).filter
                    (fun r => !(decide ((q ++ s :: rel') <+: r)))) =
                  (childPath q c :: entryPaths [] so c (childPath q c)).filter
                    (fun r => !(decide ((q ++ s :: rel') <+: r))) := by
                rw [List.filter_cons]
                simp [hcpkeep]
              rw [hhd]
            · have hinert := entryPaths_inert so (q ++ s :: rel') c
                (childPath q c) hwfc ?_
              · rw [hinert, htail]
                have hblock : (childPath q c ::
                    entryPaths [] so c (childPath q c)).filter
                    (fun r => !(decide ((q ++ s :: rel') <+: r))) =
                    childPath q c :: entryPaths [] so c (childPath q c) := by
                  apply List.filter_eq_self.mpr
                  intro r hr
                  rcases List.mem_cons.mp hr with hre | hrs
                  · subst hre
                    exact hcpkeep
                  · rcases entryPaths_extend [] so c (childPath q c) r hrs with
                      ⟨t, _, hteq⟩
                    have hcppre : childPath q c <+: r := ⟨t, hteq.symm⟩
                    simp only [Bool.not_eq_true', decide_eq_false_iff_not]
                    intro hfppre
                    rcases List.prefix_or_prefix_of_prefix hfppre hcppre with
                      hp1 | hp2
                    · exact fp_not_prefix_cp q s rel' c hcp hp1
                    · rw [childPath] at hp2
                      have := ( List.prefix_append_right_inj q).mp hp2
                      have hns := ( List.cons_prefix_cons.mp this).1
                      exact hcname hns
                rw [hblock]
              · intro rel₂ hne₂ heq₂
                exfalso
                rw [childPath] at heq₂
                have hap : q ++ s :: rel' = q ++ (c.name :: rel₂) := by
                  rw [heq₂]
                  simp
                have := List.append_cancel_left hap
                exact hcname ((List.cons.injEq _ _ _ _).mp this).1.symm


theorem entryPaths_file_pref (so : List (Char × Int)) :
    ∀ (node : FSNode) (q rel : List String) (nm2 : String),
      wfNode node = true → lookupNode node rel = some (.file nm2) →
      ∀ r ∈ entryPaths [] so node q, (q ++ rel) <+: r → r = q ++ rel := by
  refine fsnode_strong_ind (fun n => ∀ q rel nm2, wfNode n = true →
    lookupNode n rel = some (.file nm2) →
    ∀ r ∈ entryPaths [] so n q, (q ++ rel) <+: r → r = q ++ rel) ?_
  intro n ihn q rel nm2 hwf hlk r hr hpre
  cases n with
  | file nm =>
    rw [entryPaths] at hr
    cases hr
  | dir nm cs =>
    cases rel with
    | nil =>
      rw [lookupNode] at hlk
      simp at hlk
    | cons s rel' =>
      rw [lookupNode] at hlk
      rcases hfc : findChild s cs with _ | c0
      · simp only [hfc] at hlk
        cases hlk
      · simp only [hfc] at hlk
        obtain ⟨hc0mem, hc0name⟩ := findChild_mem s cs c0 hfc
        obtain ⟨hnodup, hwfcs⟩ := wfNode_dir_elim nm cs hwf
        rw [entryPaths, filter_empty_contains] at hr
        have hmemcs : ∀ c ∈ sortChildren so q cs, c ∈ cs :=
          fun c hc => mem_sortChildren _ _ _ _ hc
        revert hr hmemcs
        generalize sortChildren so q cs = L
        intro hr hmemcs
        induction L with
        | nil =>
          rw [entryPathsList] at hr
          cases hr
        | cons c rest ihl =>
          rw [entryPathsList] at hr
          have hcmemcs : c ∈ cs := hmemcs c (List.mem_cons_self _ _)
          have hwfc : wfNode c = true := wfChildren_mem cs c hwfcs hcmemcs
          have hszc : sizeOf c < sizeOf (FSNode.dir nm cs) := by
            have := List.sizeOf_lt_of_mem hcmemcs
            simp only [FSNode.dir.sizeOf_spec]
            omega
          rcases List.mem_append.mp hr with hblk | hrest
          · rcases List.mem_cons.mp hblk with hre | hrs
            · subst hre
              by_cases hcp : childPath q c = q ++ s :: rel'
              · exact hcp
              · exact absurd hpre (fp_not_prefix_cp q s rel' c hcp)
            · by_cases hfpcp : (q ++ s :: rel') <+: childPath q c
              · have hcp : childPath q c = q ++ s :: rel' := by
                  by_contra hcon
                  exact fp_not_prefix_cp q s rel' c hcon hfpcp
                have hcnm : c.name = s ∧ s :: rel' = [c.name] := by
                  rw [childPath] at hcp
                  have := List.append_cancel_left hcp
                  constructor
                  · exact (((List.cons.injEq _ _ _ _).mp this.symm).1).symm
                  · exact this.symm
                have hrel0 : rel' = [] :=
                  ((List.cons.injEq _ _ _ _).mp hcnm.2).2
                have hceq : c = c0 :=
                  unique_child cs c0 c s hnodup hfc hcmemcs hcnm.1
                subst hrel0
                rw [lookupNode] at hlk
                have hc0file : c0 = .file nm2 := by
                  injection hlk
                rw [hceq, hc0file] at hrs
                rw [entryPaths] at hrs
                cases hrs
              · rcases entryPaths_extend [] so c (childPath q c) r hrs with
                  ⟨t, _, hteq⟩
                have hcppre : childPath q c <+: r := ⟨t, hteq.symm⟩
                rcases List.prefix_or_prefix_of_prefix hpre hcppre with
                  hp1 | hp2
                · exact absurd hp1 hfpcp
                · rw [childPath] at hp2
                  have hpc := ( List.prefix_append_right_inj q).mp hp2
                  have hcnm : c.name = s := ( List.cons_prefix_cons.mp hpc).1
                  have hceq : c = c0 :=
                    unique_child cs c0 c s hnodup hfc hcmemcs hcnm
                  have hfpeq : childPath q c ++ rel' = q ++ s :: rel' := by
                    rw [childPath, hcnm]
                    simp
                  have := ihn c hszc (childPath q c) rel' nm2 hwfc
                    (by rw [hceq]; exact hlk) r hrs (by rw [hfpeq]; exact hpre)
                  rw [this, hfpeq]
          · exact ihl hrest (fun d hd => hmemcs d (List.mem_cons_of_mem _ hd))


theorem lookupNode_append (a : List String) :
    ∀ (fs : FSNode) (b : List String), lookupNode fs (a ++ b) =
      match lookupNode fs a with
      | none => none
      | some n => lookupNode n b := by
  induction a with
  | nil =>
    intro fs b
    cases fs <;> rfl
  | cons s t ih =>
    intro fs b
    cases fs with
    | file nm => rfl
    | dir nm cs =>
      rcases hfc : findChild s cs with _ | c
      · simp only [List.cons_append, lookupNode, hfc]
      · simp only [List.cons_append, lookupNode, hfc]
        exact ih c b

/-- Claim C3 (amended): a filter entry resolving to a file under the root
removes exactly that file's entry from the walk, keeping every other
entry (even though the connector and prefix glyphs of remaining lines may
change); one resolving to a directory under the root removes that
directory's entry and all of its descendants; and one resolving to no
existing path at all — below the root or anywhere else — leaves the walk
and the output entirely unchanged and raises no error. -/
theorem claim_C3_amended (fs : FSNode) (cwd : List String)
    (sd : Option RawPath) (e : RawPath) (fp p : List String)
    (df ff dfS ffS : String)
    (hfp : sanitizeFilterList p [e] = [fp])
    (hwf : wfNode (nodeAtD fs p) = true) :
    (∀ rel, rel ≠ [] → fp = p ++ rel →
      (∃ nm2, lookupNode (nodeAtD fs p) rel = some (.file nm2)) →
      (addEntries (mkConfig [fp] dfS ffS) (nodeAtD fs p) p "").map Prod.fst =
        ((addEntries (mkConfig [] dfS ffS) (nodeAtD fs p) p "").map
          Prod.fst).filter (fun r => !(decide (r = fp)))) ∧
    (∀ rel, rel ≠ [] → fp = p ++ rel →
      (∃ nm2 cs2, lookupNode (nodeAtD fs p) rel = some (.dir nm2 cs2)) →
      (addEntries (mkConfig [fp] dfS ffS) (nodeAtD fs p) p "").map Prod.fst =
        ((addEntries (mkConfig [] dfS ffS) (nodeAtD fs p) p "").map
          Prod.fst).filter (fun r => !(decide (fp <+: r)))) ∧
    (lookupNode fs fp = none →
      addContents (mkConfig [fp] dfS ffS) (nodeAtD fs p) p "" =
        addContents (mkConfig [] dfS ffS) (nodeAtD fs p) p "" ∧
      (sanitizeStartDir fs cwd sd = .ok p →
        buildLines fs cwd sd [e] df ff = buildLines fs cwd sd [] df ff)) := by
  have hb1 : (addEntries (mkConfig [fp] dfS ffS) (nodeAtD fs p) p "").map
      Prod.fst = entryPaths [fp] mkSortOrder (nodeAtD fs p) p :=
    addEntries_fst (mkConfig [fp] dfS ffS) (nodeAtD fs p) p ""
  have hb0 : (addEntries (mkConfig [] dfS ffS) (nodeAtD fs p) p "").map
      Prod.fst = entryPaths [] mkSortOrder (nodeAtD fs p) p :=
    addEntries_fst (mkConfig [] dfS ffS) (nodeAtD fs p) p ""
  have hnowhere : lookupNode fs fp = none →
      ∀ rel₂, rel₂ ≠ [] → fp = p ++ rel₂ →
        lookupNode (nodeAtD fs p) rel₂ = none := by
    intro h0 rel₂ hne₂ heq₂
    rw [heq₂, lookupNode_append] at h0
    rw [nodeAtD]
    rcases hlk : lookupNode fs p with _ | n
    · rcases rel₂ with _ | ⟨s, t⟩
      · exact absurd rfl hne₂
      · rfl
    · rw [hlk] at h0
      exact h0
  refine ⟨?_, ?_, ?_⟩
  · rintro rel hne hrel ⟨nm2, hlkf⟩
    rw [hb1, hb0, hrel]
    rw [entryPaths_remove mkSortOrder (nodeAtD fs p) p rel hwf hne
      (by rw [hlkf]; simp)]
    apply List.filter_congr
    intro r hr
    by_cases hreq : r = p ++ rel
    · subst hreq
      simp
    · have hnp : ¬ (p ++ rel) <+: r := by
        intro hp
        exact hreq (entryPaths_file_pref mkSortOrder (nodeAtD fs p) p rel
          nm2 hwf hlkf r hr hp)
      simp [hnp, hreq]
  · rintro rel hne hrel ⟨nm2, cs2, hlkd⟩
    rw [hb1, hb0, hrel]
    exact entryPaths_remove mkSortOrder (nodeAtD fs p) p rel hwf hne
      (by rw [hlkd]; simp)
  · intro hnone
    refine ⟨addContents_inert (mkConfig [] dfS ffS) fp (nodeAtD fs p) p ""
      hwf (hnowhere hnone), ?_⟩
    intro hs
    have hred1 : buildLines fs cwd sd [e] df ff =
        .ok (linesFor fs p (sanitizeFilterList p [e])
          (sanitizeFormats df ff).1 (sanitizeFormats df ff).2) := by
      rw [buildLines, hs]
    have hred0 : buildLines fs cwd sd [] df ff =
        .ok (linesFor fs p (sanitizeFilterList p [])
          (sanitizeFormats df ff).1 (sanitizeFormats df ff).2) := by
      rw [buildLines, hs]
    have hsf : sanitizeFilterList p ([] : List RawPath) = [] := rfl
    rw [hred1, hred0, hfp, hsf, linesFor, linesFor]
    exact congrArg
      (fun t => Except.ok (addRoot (sanitizeFormats df ff).1 p :: t))
      (addContents_inert (mkConfig [] (sanitizeFormats df ff).1
        (sanitizeFormats df ff).2) fp (nodeAtD fs p) p "" hwf
        (hnowhere hnone))

/-- Counterexample to claim C3 as stated: filtering the root's file
`b.txt` makes exactly that entry disappear, but the surviving sibling
directory `A` becomes the last entry and its line changes from the tee
connector to the elbow (and its child's prefix changes too), so the
other entries' lines are not all unaffected. -/
theorem claim_C3_cex :
    buildLines fsC1 [] (some ⟨true, ["R"]⟩) [⟨false, ["b.txt"]⟩] "" "" =
      .ok ["R/", "└─ A/", "   └─ x.txt"] ∧
    buildLines fsC1 [] (some ⟨true, ["R"]⟩) [] "" "" =
      .ok ["R/", "├─ A/", "│  └─ x.txt", "└─ b.txt"] ∧
    ("└─ A/" : String) ≠ "├─ A/" := by
  refine ⟨?_, buildLines_fsC1, by decide⟩
  simp +decide [buildLines, linesFor, mkConfig, sanitizeStartDir, isDirRaw, walkSegs,
    sanitizeFilterList, sanitizeFormats, getLeads, mkSortOrder, addRoot, nodeAtD,
    resolvePath, resolveSegs, isDirAt, lookupNode, findChild, addContents,
    emitLoop, survivors, sortChildren, insSortBy, insertSorted, leKey1, leKey2,
    leKey3, sortKeyStr, lowerChars, pathChars, childPath, doSortRank, lexLe,
    lexLt, replaceStr, replaceChars, lstripStr, pyFind, findFrom, spaces,
    FSNode.name, FSNode.isDirB, FSNode.isFileB, pathName, fsC1,
    FORMAT_NAME, FORMAT_DIR, FORMAT_FILE, CONNECTOR_TEE, CONNECTOR_ELL,
    PREFIX_VERT, PREFIX_NONE, CHAR_VERT, CHAR_HORZ, CHAR_TEE, CHAR_ELL,
    CHAR_SPACE, SORT_ORDER]

/-- Witness for the amended claim C3: filtering the file `x.txt` under
directory `A` drops exactly that entry from the walk. -/
theorem claim_C3_witness :
    (addEntries (mkConfig [["R", "A", "x.txt"]] "" "") (nodeAtD fsC1 ["R"])
        ["R"] "").map Prod.fst =
      ((addEntries (mkConfig [] "" "") (nodeAtD fsC1 ["R"]) ["R"] "").map
        Prod.fst).filter (fun r => !(decide (r = ["R", "A", "x.txt"]))) :=
  (claim_C3_amended fsC1 [] none ⟨false, ["A", "x.txt"]⟩ ["R", "A", "x.txt"]
    ["R"] "" "" "" "" (by rfl)
    (by simp +decide [wfNode, wfChildren, nodeAtD, fsC1, lookupNode,
      findChild, FSNode.name])).1 ["A", "x.txt"] (by decide) rfl
    ⟨"x.txt", by rfl⟩

